import Mathlib

/-! Shallow embedding of `Ecli::parse` and `Ecli::help` of the library ecli.

Source: `src/ecli.hpp` (the library) and `src/examples/hello.cpp` (the example
option set `MyOptions`).

Modelling conventions.

* A C string (`char const*` to a NUL-terminated buffer) is the list of its
  characters before the terminator (`CStr`).  `strlen` is the length of that
  list; reading the byte at offset `strlen` yields the terminator, reading
  beyond it is out of bounds.
* A nullable `char const*` (the member `Option::value`) is `Option CStr`,
  `none` standing for `nullptr`.
* The derived structure reinterpreted as an array `Option options[nb_options]`
  is a `List Ecli.Option`; `nb_options` is its length.
* `argv` is a `List CStr` of which `parse` may use the slots `0 .. argc-1`;
  every read or write of a slot is bounds-checked, an access outside the list
  yields the outcome `Ecli.Result.fault`.
* `CRTP::help(intro_msg); std::exit(EXIT_SUCCESS)` is the outcome
  `Ecli.Result.exited out`, `out` being the text written to standard output.
* `int` values (`argc`, `i`, `j`, `nb_positional`, `opt_size`) are natural
  numbers: they only count tokens and characters, which are bounded by the
  size of the address space, so no arithmetic wraps.
* The library is embedded as compiled by default, that is without the macro
  `JVERNAY_ECLI_PREVENT_DESTRUCTIVE`: positional tokens are moved to the front
  of `argv` and counted.
-/

/-- Content of a NUL-terminated C string: the characters before the terminator. -/
abbrev CStr := List Char

/-- A nullable `char const*`: `none` is `nullptr`, `some s` points to the string `s`. -/
abbrev CharPtr := Option CStr

/-- Outcome of reading one byte `s[k]` of a NUL-terminated string. -/
inductive CByte where
  | chr (c : Char)
  | nul
  | outOfBounds
  deriving DecidableEq, Repr

/-- The read `s[k]`: a character of the content, the terminator at offset
`strlen s`, out of bounds beyond. -/
def CStr.byteAt (s : CStr) (k : Nat) : CByte :=
  match s, k with
  | [], 0 => .nul
  | [], _ + 1 => .outOfBounds
  | c :: _, 0 => .chr c
  | _ :: cs, k + 1 => CStr.byteAt cs k

/-- The function `std::strlen`. -/
def strlen (s : CStr) : Nat := s.length

/-- The function `std::strcmp`: zero when the strings are equal, otherwise the
sign of the first difference (the terminator being smaller than any character). -/
def strcmp : CStr → CStr → Int
  | [], [] => 0
  | [], _ :: _ => -1
  | _ :: _, [] => 1
  | a :: as, b :: bs =>
    if a = b then strcmp as bs else if a.toNat < b.toNat then -1 else 1

/-- The function `std::strncmp`: as `strcmp`, comparing at most `n` characters. -/
def strncmp : CStr → CStr → Nat → Int
  | _, _, 0 => 0
  | [], [], _ + 1 => 0
  | [], _ :: _, _ + 1 => -1
  | _ :: _, [], _ + 1 => 1
  | a :: as, b :: bs, n + 1 =>
    if a = b then strncmp as bs n else if a.toNat < b.toNat then -1 else 1

/-- The format `%-*s` of `printf`: the string left-justified in a field of the
given width (a negative width counts as its absolute value), padded with
spaces on the right; a longer string is printed in full. -/
def printfLeft (width : Int) (s : CStr) : CStr :=
  s ++ List.replicate (width.natAbs - s.length) ' '

/-- The enumeration `Ecli::OptionState`. -/
inductive Ecli.OptionState where
  | Argument
  | Switch
  | _processed
  deriving DecidableEq, Repr

/-- The structure `Ecli::Option`. -/
structure Ecli.Option where
  name : CStr
  state : Ecli.OptionState
  value : CharPtr
  deriving DecidableEq, Repr

/-- Loop state of `Ecli::parse` at the head of the outer `for` loop. -/
structure Ecli.Loop where
  options : List Ecli.Option
  argv : List CStr
  i : Nat
  nb_positional : Nat
  deriving DecidableEq, Repr

/-- Outcome of a call of `Ecli::parse`. -/
inductive Ecli.Result where
  /-- The statement `return nb_positional`, with the final options and `argv`. -/
  | returned (options : List Ecli.Option) (argv : List CStr) (nb_positional : Nat)
  /-- The calls `CRTP::help(intro_msg); std::exit(EXIT_SUCCESS)`. -/
  | exited (out : CStr)
  /-- An access to `argv` or to a token outside its bounds. -/
  | fault
  /-- The model ran out of fuel before the loop ended. -/
  | outOfFuel
  deriving DecidableEq, Repr

/-- Outcome of the inner `for (j = 0; j < nb_options; ++j)` loop. -/
inductive Ecli.Inner where
  /-- The loop ended with this value of `j`, these options and this `i`. -/
  | done (j : Nat) (options : List Ecli.Option) (i : Nat)
  | fault
  deriving DecidableEq, Repr

/-- Outcome of one iteration of the outer loop (the increment `++i` included). -/
inductive Ecli.Step where
  | next (s : Ecli.Loop)
  | exited (out : CStr)
  | fault
  deriving DecidableEq, Repr

/-- First loop of `Ecli::help`: the column width `name_size`. -/
def Ecli.helpNameSize : List Ecli.Option → Int → Int
  | [], name_size => name_size
  | opt :: rest, name_size =>
    let size : Int := strlen opt.name
    let size := if opt.state = .Argument then size + 4 else size
    Ecli.helpNameSize rest (if name_size < size then size else name_size)

/-- One line of the second loop of `Ecli::help`. -/
def Ecli.helpLine (name_size : Int) (opt : Ecli.Option) : CStr :=
  let value : CStr := match opt.value with
    | none => []
    | some v => v
  if opt.state = .Argument then
    '\t' :: opt.name ++ ' ' :: printfLeft (name_size - (strlen opt.name : Int) - 1) "...".toList
      ++ "  \t".toList ++ value ++ ['\n']
  else
    '\t' :: printfLeft name_size opt.name ++ "  \t".toList ++ value ++ ['\n']

/-- The text written by `Ecli::help`; `initial` is the default-constructed
`CRTP initial_options{}`. -/
def Ecli.help (initial : List Ecli.Option) (intro_msg : CStr) : CStr :=
  let name_size := Ecli.helpNameSize initial 0
  intro_msg ++ "\n\n".toList
    ++ (initial.map (Ecli.helpLine name_size)).flatten ++ ['\n']

/-- The string literal `"--help"` that `Ecli::parse` compares every token with. -/
def Ecli.helpFlag : CStr := "--help".toList

/-- The inner loop of `Ecli::parse` from some `j` on; `tok` is `argv[i]`.
The returned `j` is relative to the first option of the list. -/
def Ecli.inner (argc : Nat) (argv : List CStr) (tok : CStr) (i : Nat) :
    List Ecli.Option → Ecli.Inner
  | [] => .done 0 [] i
  | opt :: rest =>
    let continue_ : Ecli.Inner :=
      match Ecli.inner argc argv tok i rest with
      | .done j options i => .done (j + 1) (opt :: options) i
      | .fault => .fault
    if opt.state = ._processed then continue_
    else
      let opt_size := strlen opt.name
      if strncmp opt.name tok opt_size ≠ 0 then continue_
      else
        match CStr.byteAt tok opt_size with
        | .outOfBounds => .fault
        | .chr c =>
          if c = '=' then
            .done 0 ({ opt with value := some (tok.drop (opt_size + 1)),
                                state := ._processed } :: rest) i
          else continue_
        | .nul =>
          if opt.state = .Argument then
            if i + 1 = argc then
              .done 0 ({ opt with value := some [], state := ._processed } :: rest) i
            else
              match argv[i + 1]? with
              | none => .fault
              | some v =>
                .done 0 ({ opt with value := some v, state := ._processed } :: rest) (i + 1)
          else
            .done 0 ({ opt with value := if opt.state = .Switch then some [] else opt.value,
                                state := ._processed } :: rest) i

/-- Body of the outer loop of `Ecli::parse` followed by `++i`. -/
def Ecli.body (initial : List Ecli.Option) (intro_msg : CStr) (argc : Nat)
    (s : Ecli.Loop) : Ecli.Step :=
  match s.argv[s.i]? with
  | none => .fault
  | some tok =>
    if strcmp tok Ecli.helpFlag = 0 then .exited (Ecli.help initial intro_msg)
    else
      match Ecli.inner argc s.argv tok s.i s.options with
      | .fault => .fault
      | .done j options i =>
        if j = s.options.length then
          if s.nb_positional < s.argv.length then
            .next { options := options, argv := s.argv.set s.nb_positional tok,
                    i := i + 1, nb_positional := s.nb_positional + 1 }
          else .fault
        else
          .next { options := options, argv := s.argv, i := i + 1,
                  nb_positional := s.nb_positional }

/-- The last loop of `Ecli::parse`: non-processed options get value `nullptr`. -/
def Ecli.clearUnprocessed (options : List Ecli.Option) : List Ecli.Option :=
  options.map fun opt => if opt.state ≠ ._processed then { opt with value := none } else opt

/-- The outer loop of `Ecli::parse` and what follows it. -/
def Ecli.loop (initial : List Ecli.Option) (intro_msg : CStr) (argc : Nat) :
    Nat → Ecli.Loop → Ecli.Result
  | fuel, s =>
    if s.i < argc then
      match fuel with
      | 0 => .outOfFuel
      | fuel + 1 =>
        match Ecli.body initial intro_msg argc s with
        | .fault => .fault
        | .exited out => .exited out
        | .next s => Ecli.loop initial intro_msg argc fuel s
    else
      .returned (Ecli.clearUnprocessed s.options) s.argv s.nb_positional

/-- The member function `Ecli::parse`: `options` is the object itself (`*this`),
`initial` the default-constructed `CRTP{}` that `help` prints. -/
def Ecli.parse (initial options : List Ecli.Option) (argc : Nat) (argv : List CStr)
    (intro_msg : CStr) : Ecli.Result :=
  Ecli.loop initial intro_msg argc argc
    { options := options, argv := argv, i := 0, nb_positional := 0 }

/-- The option set `MyOptions` of `examples/hello.cpp`. -/
def MyOptions : List Ecli.Option :=
  [ { name := "--hello".toList, state := .Argument,
      value := some "Greets the given name.".toList },
    { name := "--hello-world".toList, state := .Switch, value := none },
    { name := "--french".toList, state := .Switch, value := some "Greets in French.".toList } ]


/-- An argument vector written as a list of string literals. -/
def argvOf (tokens : List String) : List CStr := tokens.map String.toList

/-- The introduction that `main` of `examples/hello.cpp` passes to `parse`. -/
def helloIntro : CStr := "Small program to output some greetings.".toList

/-- An option set with the single option `--name`, of kind `Argument`. -/
def nameOption : List Ecli.Option :=
  [ { name := "--name".toList, state := .Argument, value := none } ]

/-- The options `--hello` and `--hello-world` in this order, of the given kinds and
with the given description texts. -/
def helloFirst (k1 k2 : Ecli.OptionState) (v1 v2 : CharPtr) : List Ecli.Option :=
  [ { name := "--hello".toList, state := k1, value := v1 },
    { name := "--hello-world".toList, state := k2, value := v2 } ]

/-- The options `--hello-world` and `--hello` in this order, of the given kinds and
with the given description texts. -/
def helloWorldFirst (k1 k2 : Ecli.OptionState) (v1 v2 : CharPtr) : List Ecli.Option :=
  [ { name := "--hello-world".toList, state := k2, value := v2 },
    { name := "--hello".toList, state := k1, value := v1 } ]

/-- The loop state on entry of the outer loop of `Ecli::parse`. -/
def Ecli.start (options : List Ecli.Option) (argv : List CStr) : Ecli.Loop :=
  { options := options, argv := argv, i := 0, nb_positional := 0 }

/-- The test of one pass of the inner loop: the pass ends in `break` (the option
takes the token) rather than in one of the three `continue`. -/
def Ecli.matchesToken (opt : Ecli.Option) (tok : CStr) : Bool :=
  decide (opt.state ≠ ._processed) && decide (strncmp opt.name tok (strlen opt.name) = 0)
    && (decide (CStr.byteAt tok (strlen opt.name) = .chr '=')
        || decide (CStr.byteAt tok (strlen opt.name) = .nul))

/-- The option that takes the token `argv[i]` of the loop state: the index at
which the inner loop breaks; `none` when the token is `--help` (the inner loop
is not run) or when the inner loop runs to `j == nb_options`. -/
def matchedAt (argc : Nat) (s : Ecli.Loop) : Option Nat :=
  match s.argv[s.i]? with
  | none => none
  | some tok =>
    if strcmp tok Ecli.helpFlag = 0 then none
    else
      match Ecli.inner argc s.argv tok s.i s.options with
      | .done j _ _ => if j = s.options.length then none else some j
      | .fault => none

/-- The pass of the inner loop that ends in `break`, for an option that takes the
token: the option and `i` after the pass, `none` when `argv[i + 1]` is read out
of bounds. -/
def takeToken (argc : Nat) (argv : List CStr) (tok : CStr) (i : Nat) (opt : Ecli.Option) :
    Option (Ecli.Option × Nat) :=
  match CStr.byteAt tok (strlen opt.name) with
  | .chr _ =>
    some ({ opt with value := some (tok.drop (strlen opt.name + 1)), state := ._processed }, i)
  | _ =>
    if opt.state = .Argument then
      if i + 1 = argc then some ({ opt with value := some [], state := ._processed }, i)
      else (argv[i + 1]?).map fun v => ({ opt with value := some v, state := ._processed }, i + 1)
    else
      some ({ opt with value := if opt.state = .Switch then some [] else opt.value,
                       state := ._processed }, i)

/-- The loop states that the outer loop goes through: `Reaches s t` when the loop
entered in state `s` gets to its head in state `t` after some iterations. -/
inductive Ecli.Reaches (initial : List Ecli.Option) (intro_msg : CStr) (argc : Nat) :
    Ecli.Loop → Ecli.Loop → Prop where
  | refl (s : Ecli.Loop) : Ecli.Reaches initial intro_msg argc s s
  | head {s s' t : Ecli.Loop} : s.i < argc →
      Ecli.body initial intro_msg argc s = .next s' →
      Ecli.Reaches initial intro_msg argc s' t → Ecli.Reaches initial intro_msg argc s t

/-- A freshly declared option set: no option carries the marker `_processed`. -/
def Ecli.Fresh (options : List Ecli.Option) : Prop :=
  ∀ o ∈ options, o.state ≠ ._processed

/-- Two names shadow each other when some token `name=value` of one is also taken
by the other: the names are equal or one begins with the other followed by `=`. -/
def Ecli.Shadows (a b : CStr) : Prop :=
  a = b ∨ (a ++ ['=']) <+: b ∨ (b ++ ['=']) <+: a

/-- Distinct, non-shadowing names: no two options at different positions have
names that shadow each other. -/
def Ecli.NoShadow (options : List Ecli.Option) : Prop :=
  ∀ (j j' : Nat) (o o' : Ecli.Option), options[j]? = some o → options[j']? = some o' → j ≠ j' →
    ¬ Ecli.Shadows o.name o'.name

/-- Loop invariant of the outer loop, `argv0` being the vector on entry. -/
def Ecli.Inv (argv0 : List CStr) (s : Ecli.Loop) : Prop :=
  s.argv.length = argv0.length ∧ s.nb_positional ≤ s.i ∧ s.i ≤ argv0.length ∧
    ∀ k, s.nb_positional ≤ k → s.argv[k]? = argv0[k]?

/-- Spec 4.1, step 2, for one descriptor not yet consumed: `some (value, took)`
when the token matches (`took` tells that the next token was taken as the
value), `none` when it does not. -/
def Spec.matchDescriptor (d : Ecli.Option) (tok : CStr) (next : Option CStr) :
    Option (CStr × Bool) :=
  if (d.name ++ ['=']).isPrefixOf tok then some (tok.drop (d.name.length + 1), false)
  else if tok = d.name then
    match d.state with
    | .Argument => some (next.getD [], next.isSome)
    | .Switch => some ([], false)
    | ._processed => none
  else none

/-- Spec 4.1, steps 2 and 4: the descriptors are tried in declaration order, the
consumed ones skipped; the first one that the token matches is consumed. -/
def Spec.matchToken (tok : CStr) (next : Option CStr) :
    List Ecli.Option → Option (List Ecli.Option × Bool)
  | [] => none
  | d :: ds =>
    match (if d.state = ._processed then none else Spec.matchDescriptor d tok next) with
    | some (v, took) => some ({ d with value := some v, state := ._processed } :: ds, took)
    | none => (Spec.matchToken tok next ds).map fun r => (d :: r.1, r.2)

/-- Spec 4.1: the tokens are scanned left to right; `none` when the help trigger
is met, otherwise the descriptors after the scan and the positional tokens in
their order.  The flag tells that the first token was taken as a value. -/
def Spec.scan : Bool → List Ecli.Option → List CStr → Option (List Ecli.Option × List CStr)
  | _, ds, [] => some (ds, [])
  | true, ds, _ :: rest => Spec.scan false ds rest
  | false, ds, tok :: rest =>
    if tok = Ecli.helpFlag then none
    else
      match Spec.matchToken tok rest.head? ds with
      | some (ds', took) => Spec.scan took ds' rest
      | none => (Spec.scan false ds rest).map fun r => (r.1, tok :: r.2)

/-- The options of `hello.cpp` after a call that consumed `--french` only. -/
def frenchConsumed : List Ecli.Option :=
  [ { name := "--hello".toList, state := .Argument, value := none },
    { name := "--hello-world".toList, state := .Switch, value := none },
    { name := "--french".toList, state := ._processed, value := some [] } ]

/-- The loop state of the call of `hello.cpp` on `--french --french` at its second
token. -/
def frenchTwiceSecond : Ecli.Loop :=
  { options :=
      [ { name := "--hello".toList, state := .Argument,
          value := some "Greets the given name.".toList },
        { name := "--hello-world".toList, state := .Switch, value := none },
        { name := "--french".toList, state := ._processed, value := some [] } ],
    argv := argvOf ["--french", "--french"], i := 1, nb_positional := 0 }

/-- Spec 4.2, the width of a name in the help: four more than the length of the
name for a `ValueOption` (room for ` ...`), the length of the name otherwise. -/
def Spec.helpNameWidth (d : Ecli.Option) : Nat :=
  if d.state = .Argument then d.name.length + 4 else d.name.length

/-- Spec 4.2, the column width: the largest name width among the descriptors. -/
def Spec.helpWidth (ds : List Ecli.Option) : Nat :=
  (ds.map Spec.helpNameWidth).foldr max 0

/-- Spec 4.2, the name field of a help line: the name, followed by ` ...` for a
`ValueOption`, right-padded with spaces to the column width. -/
def Spec.helpField (width : Nat) (d : Ecli.Option) : CStr :=
  let shown : CStr := if d.state = .Argument then d.name ++ " ...".toList else d.name
  shown ++ List.replicate (width - shown.length) ' '

/-- Spec 4.2 and 6, one help line: a tab, the name field, two spaces, a tab, the
declared description (empty when none was declared) and a newline. -/
def Spec.helpLine (width : Nat) (d : Ecli.Option) : CStr :=
  '\t' :: Spec.helpField width d ++ "  \t".toList ++ d.value.getD [] ++ ['\n']

/-- Unambiguous names: the names of the options are pairwise distinct and none
contains the character `=`. -/
def Ecli.Unambiguous (options : List Ecli.Option) : Prop :=
  (options.map (·.name)).Nodup ∧ ∀ o ∈ options, '=' ∉ o.name

/-- The options of `hello.cpp` declared in another order. -/
def MyOptionsReordered : List Ecli.Option :=
  [ { name := "--french".toList, state := .Switch, value := some "Greets in French.".toList },
    { name := "--hello".toList, state := .Argument,
      value := some "Greets the given name.".toList },
    { name := "--hello-world".toList, state := .Switch, value := none } ]

/-- The token of the loop state takes the token behind it as its value: the
option at which the inner loop breaks is of kind `Argument`, the token is
exactly its name, and it is not the last token of the vector `argv0`. -/
def takesNextToken (argv0 : List CStr) (s : Ecli.Loop) : Prop :=
  ∃ (j : Nat) (d : Ecli.Option), matchedAt argv0.length s = some j ∧
    s.options[j]? = some d ∧ d.state = .Argument ∧ argv0[s.i]? = some d.name ∧
    s.i + 1 < argv0.length

/-! ## The C string functions -/

theorem strcmp_eq_zero (a b : CStr) : strcmp a b = 0 ↔ a = b := by
  induction a generalizing b with
  | nil => cases b <;> simp [strcmp]
  | cons x xs ih =>
    cases b with
    | nil => simp [strcmp]
    | cons y ys =>
      by_cases h : x = y
      · simp [strcmp, h, ih]
      · by_cases h' : x.toNat < y.toNat <;> simp [strcmp, h, h']

theorem strncmp_eq_zero (a b : CStr) : strncmp a b (strlen a) = 0 ↔ a <+: b := by
  induction a generalizing b with
  | nil => simp [strncmp, strlen]
  | cons x xs ih =>
    cases b with
    | nil => simp [strncmp, strlen]
    | cons y ys =>
      have ih' := ih ys
      simp only [strlen] at ih'
      by_cases h : x = y
      · simp [strncmp, strlen, h, ih', List.cons_prefix_cons]
      · by_cases h' : x.toNat < y.toNat <;>
          simp [strncmp, strlen, h, h', List.cons_prefix_cons]

theorem byteAt_append (p s : CStr) : CStr.byteAt (p ++ s) p.length = CStr.byteAt s 0 := by
  induction p with
  | nil => rfl
  | cons c cs ih => simpa [CStr.byteAt] using ih

theorem byteAt_zero_nil : CStr.byteAt [] 0 = .nul := rfl

theorem byteAt_zero_cons (c : Char) (cs : CStr) : CStr.byteAt (c :: cs) 0 = .chr c := rfl

/-! ## The inner loop -/

theorem matchesToken_eq_true {opt : Ecli.Option} {tok : CStr} :
    Ecli.matchesToken opt tok = true ↔
      opt.state ≠ ._processed ∧ opt.name <+: tok ∧
        (CStr.byteAt tok (strlen opt.name) = .chr '=' ∨
          CStr.byteAt tok (strlen opt.name) = .nul) := by
  simp [Ecli.matchesToken, strncmp_eq_zero, and_assoc]

theorem inner_cons_skip (argc : Nat) (argv : List CStr) (tok : CStr) (i : Nat)
    (opt : Ecli.Option) (rest : List Ecli.Option) (h : Ecli.matchesToken opt tok = false) :
    Ecli.inner argc argv tok i (opt :: rest) =
      match Ecli.inner argc argv tok i rest with
      | .done j options i => .done (j + 1) (opt :: options) i
      | .fault => .fault := by
  have h' : ¬ Ecli.matchesToken opt tok = true := by simp [h]
  rw [matchesToken_eq_true] at h'
  rw [Ecli.inner]
  by_cases h1 : opt.state = ._processed
  · simp [h1]
  · by_cases h2 : strncmp opt.name tok (strlen opt.name) = 0
    · have hp := (strncmp_eq_zero _ _).1 h2
      obtain ⟨r, rfl⟩ := hp
      have hb : CStr.byteAt (opt.name ++ r) (strlen opt.name) = CStr.byteAt r 0 :=
        byteAt_append _ _
      cases r with
      | nil =>
        exact absurd ⟨h1, ⟨[], rfl⟩, Or.inr (by rw [hb]; rfl)⟩ h'
      | cons c cs =>
        have hc : c ≠ '=' := by
          rintro rfl
          exact h' ⟨h1, ⟨_, rfl⟩, Or.inl (by rw [hb]; rfl)⟩
        simp [h1, h2, hb, CStr.byteAt, hc]
    · simp [h1, h2]

theorem inner_cons_take (argc : Nat) (argv : List CStr) (tok : CStr) (i : Nat)
    (opt : Ecli.Option) (rest : List Ecli.Option) (h : Ecli.matchesToken opt tok = true) :
    Ecli.inner argc argv tok i (opt :: rest) =
      match takeToken argc argv tok i opt with
      | some (opt', i') => .done 0 (opt' :: rest) i'
      | none => .fault := by
  rw [matchesToken_eq_true] at h
  obtain ⟨h1, h2, h3⟩ := h
  have h2' := (strncmp_eq_zero _ _).2 h2
  rw [Ecli.inner, takeToken]
  rcases h3 with h3 | h3
  · simp [h1, h2', h3]
  · simp only [h1, h2', h3]
    by_cases ha : opt.state = .Argument
    · by_cases hi : i + 1 = argc
      · simp [ha, hi]
      · cases hv : argv[i + 1]? <;> simp [ha, hi, hv]
    · simp [ha]

theorem inner_append (argc : Nat) (argv : List CStr) (tok : CStr) (i : Nat)
    (pre rest : List Ecli.Option) (h : ∀ o ∈ pre, Ecli.matchesToken o tok = false) :
    Ecli.inner argc argv tok i (pre ++ rest) =
      match Ecli.inner argc argv tok i rest with
      | .done j options i' => .done (pre.length + j) (pre ++ options) i'
      | .fault => .fault := by
  induction pre with
  | nil => cases hr : Ecli.inner argc argv tok i rest <;> simp [hr]
  | cons o os ih =>
    have ho : Ecli.matchesToken o tok = false := h o (List.mem_cons_self _ _)
    have hos : ∀ o' ∈ os, Ecli.matchesToken o' tok = false :=
      fun o' ho' => h o' (List.mem_cons_of_mem _ ho')
    rw [List.cons_append, inner_cons_skip _ _ _ _ _ _ ho, ih hos]
    cases Ecli.inner argc argv tok i rest <;> simp [Nat.add_right_comm, Nat.add_assoc]

theorem inner_no_match (argc : Nat) (argv : List CStr) (tok : CStr) (i : Nat)
    (os : List Ecli.Option) (h : ∀ o ∈ os, Ecli.matchesToken o tok = false) :
    Ecli.inner argc argv tok i os = .done os.length os i := by
  have := inner_append argc argv tok i os [] h
  simpa [Ecli.inner] using this

theorem first_match_split (os : List Ecli.Option) (tok : CStr) :
    (∀ o ∈ os, Ecli.matchesToken o tok = false) ∨
      ∃ pre d post, os = pre ++ d :: post ∧
        (∀ o ∈ pre, Ecli.matchesToken o tok = false) ∧ Ecli.matchesToken d tok = true := by
  induction os with
  | nil => left; simp
  | cons o os ih =>
    cases hm : Ecli.matchesToken o tok with
    | true => exact Or.inr ⟨[], o, os, rfl, by simp, hm⟩
    | false =>
      rcases ih with h | ⟨pre, d, post, rfl, hpre, hd⟩
      · left
        intro o' ho'
        rcases List.mem_cons.1 ho' with rfl | ho'
        · exact hm
        · exact h _ ho'
      · refine Or.inr ⟨o :: pre, d, post, rfl, ?_, hd⟩
        intro o' ho'
        rcases List.mem_cons.1 ho' with rfl | ho'
        · exact hm
        · exact hpre _ ho'

theorem split_at_index {α : Type} (l : List α) (j : Nat) (d : α) (h : l[j]? = some d) :
    l = l.take j ++ d :: l.drop (j + 1) ∧ (l.take j).length = j := by
  have hj : j < l.length := (List.getElem?_eq_some.1 h).1
  have hd : l[j] = d := (List.getElem?_eq_some.1 h).2
  refine ⟨?_, by simp [Nat.le_of_lt hj]⟩
  rw [← hd, List.getElem_cons_drop, List.take_append_drop]

theorem mem_take_index {α : Type} (l : List α) (j : Nat) (o : α) (h : o ∈ l.take j) :
    ∃ j', j' < j ∧ l[j']? = some o := by
  obtain ⟨k, hk, rfl⟩ := List.getElem_of_mem h
  have hk' : k < j ∧ k < l.length := by simpa using hk
  refine ⟨k, hk'.1, ?_⟩
  rw [List.getElem_take]
  exact (List.getElem?_eq_getElem hk'.2)

theorem set_eq_take_append {α : Type} (l : List α) (j : Nat) (d d' : α) (h : l[j]? = some d) :
    l.set j d' = l.take j ++ d' :: l.drop (j + 1) := by
  have hj : j < l.length := (List.getElem?_eq_some.1 h).1
  exact List.set_eq_take_append_cons_drop .. |>.trans (by simp [hj])

theorem inner_at (argc : Nat) (argv : List CStr) (tok : CStr) (i : Nat)
    (os : List Ecli.Option) (j : Nat) (d : Ecli.Option) (hj : os[j]? = some d)
    (hfirst : ∀ j' o, j' < j → os[j']? = some o → Ecli.matchesToken o tok = false)
    (hm : Ecli.matchesToken d tok = true) :
    Ecli.inner argc argv tok i os =
      match takeToken argc argv tok i d with
      | some (d', i') => .done j (os.set j d') i'
      | none => .fault := by
  obtain ⟨hsplit, hlen⟩ := split_at_index os j d hj
  have hpre : ∀ o ∈ os.take j, Ecli.matchesToken o tok = false := by
    intro o ho
    obtain ⟨j', hj', ho'⟩ := mem_take_index os j o ho
    exact hfirst j' o hj' ho'
  conv_lhs => rw [hsplit]
  rw [inner_append _ _ _ _ _ _ hpre, inner_cons_take _ _ _ _ _ _ hm]
  cases ht : takeToken argc argv tok i d with
  | none => simp
  | some p =>
    obtain ⟨d', i'⟩ := p
    simp [hlen, set_eq_take_append os j d d' hj]

theorem takeToken_some (argc : Nat) (argv : List CStr) (tok : CStr) (i : Nat)
    (d : Ecli.Option) (h : i + 1 ≠ argc → i + 1 < argv.length) :
    ∃ d' i', takeToken argc argv tok i d = some (d', i') := by
  unfold takeToken
  have key : ∃ d' i',
      (if d.state = .Argument then
        if i + 1 = argc then some ({ d with value := some [], state := ._processed }, i)
        else (argv[i + 1]?).map fun v =>
          (({ d with value := some v, state := ._processed } : Ecli.Option), i + 1)
      else
        some ({ d with value := if d.state = .Switch then some [] else d.value,
                       state := ._processed }, i)) = some (d', i') := by
    by_cases ha : d.state = .Argument
    · by_cases hi : i + 1 = argc
      · simp [ha, hi]
      · have hlt := h hi
        simp [ha, hi, List.getElem?_eq_getElem hlt]
    · simp [ha]
  cases hb : CStr.byteAt tok (strlen d.name) with
  | chr c => exact ⟨_, _, rfl⟩
  | nul => exact key
  | outOfBounds => exact key

theorem takeToken_spec (argc : Nat) (argv : List CStr) (tok : CStr) (i : Nat)
    (d d' : Ecli.Option) (i' : Nat) (h : takeToken argc argv tok i d = some (d', i')) :
    d'.name = d.name ∧ d'.state = ._processed ∧
      (i' = i ∨ (i' = i + 1 ∧ i + 1 ≠ argc ∧ i + 1 < argv.length)) ∧
      (d.state ≠ ._processed → d'.value ≠ none) := by
  unfold takeToken at h
  have key : (if d.state = .Argument then
        if i + 1 = argc then some ({ d with value := some [], state := ._processed }, i)
        else (argv[i + 1]?).map fun v =>
          (({ d with value := some v, state := ._processed } : Ecli.Option), i + 1)
      else
        some ({ d with value := if d.state = .Switch then some [] else d.value,
                       state := ._processed }, i)) = some (d', i') →
      d'.name = d.name ∧ d'.state = ._processed ∧
      (i' = i ∨ (i' = i + 1 ∧ i + 1 ≠ argc ∧ i + 1 < argv.length)) ∧
      (d.state ≠ ._processed → d'.value ≠ none) := by
    intro h
    by_cases ha : d.state = .Argument
    · by_cases hi : i + 1 = argc
      · simp only [ha, hi, if_true, Option.some.injEq, Prod.mk.injEq] at h
        obtain ⟨rfl, rfl⟩ := h
        simp
      · simp only [ha, hi, if_true, if_false, Option.map_eq_some', Prod.mk.injEq] at h
        obtain ⟨v, hv, rfl, rfl⟩ := h
        have hlt : i + 1 < argv.length := (List.getElem?_eq_some.1 hv).1
        simp [hi, hlt]
    · simp only [ha, if_false, Option.some.injEq, Prod.mk.injEq] at h
      obtain ⟨rfl, rfl⟩ := h
      refine ⟨rfl, rfl, Or.inl rfl, ?_⟩
      intro hp
      have hs : d.state = .Switch := by
        cases hst : d.state <;> simp_all
      simp [hs]
  cases hb : CStr.byteAt tok (strlen d.name) with
  | chr c =>
    simp only [hb, Option.some.injEq, Prod.mk.injEq] at h
    obtain ⟨rfl, rfl⟩ := h
    simp
  | nul => rw [hb] at h; exact key h
  | outOfBounds => rw [hb] at h; exact key h

/-! ## The body of the outer loop -/

theorem body_help (initial : List Ecli.Option) (intro_msg : CStr) (argc : Nat)
    (s : Ecli.Loop) (h : s.argv[s.i]? = some Ecli.helpFlag) :
    Ecli.body initial intro_msg argc s = .exited (Ecli.help initial intro_msg) := by
  simp [Ecli.body, h, strcmp_eq_zero]

theorem body_positional (initial : List Ecli.Option) (intro_msg : CStr) (argc : Nat)
    (s : Ecli.Loop) (tok : CStr) (h : s.argv[s.i]? = some tok) (hh : tok ≠ Ecli.helpFlag)
    (hno : ∀ o ∈ s.options, Ecli.matchesToken o tok = false)
    (hnp : s.nb_positional < s.argv.length) :
    Ecli.body initial intro_msg argc s =
      .next { options := s.options, argv := s.argv.set s.nb_positional tok,
              i := s.i + 1, nb_positional := s.nb_positional + 1 } := by
  simp [Ecli.body, h, strcmp_eq_zero, hh, inner_no_match _ _ _ _ _ hno, hnp]

theorem body_take (initial : List Ecli.Option) (intro_msg : CStr) (argc : Nat)
    (s : Ecli.Loop) (tok : CStr) (j : Nat) (d d' : Ecli.Option) (i' : Nat)
    (h : s.argv[s.i]? = some tok) (hh : tok ≠ Ecli.helpFlag)
    (hj : s.options[j]? = some d)
    (hfirst : ∀ j' o, j' < j → s.options[j']? = some o → Ecli.matchesToken o tok = false)
    (hm : Ecli.matchesToken d tok = true)
    (ht : takeToken argc s.argv tok s.i d = some (d', i')) :
    Ecli.body initial intro_msg argc s =
      .next { options := s.options.set j d', argv := s.argv, i := i' + 1,
              nb_positional := s.nb_positional } := by
  have hlt : j < s.options.length := (List.getElem?_eq_some.1 hj).1
  simp [Ecli.body, h, strcmp_eq_zero, hh, inner_at _ _ _ _ _ j d hj hfirst hm, ht,
    Nat.ne_of_lt hlt]

theorem matchedAt_help (argc : Nat) (s : Ecli.Loop) (h : s.argv[s.i]? = some Ecli.helpFlag) :
    matchedAt argc s = none := by
  simp [matchedAt, h, strcmp_eq_zero]

theorem matchedAt_positional (argc : Nat) (s : Ecli.Loop) (tok : CStr)
    (h : s.argv[s.i]? = some tok)
    (hno : ∀ o ∈ s.options, Ecli.matchesToken o tok = false) :
    matchedAt argc s = none := by
  simp [matchedAt, h, inner_no_match _ _ _ _ _ hno]

theorem matchedAt_take (argc : Nat) (s : Ecli.Loop) (tok : CStr) (j : Nat)
    (d d' : Ecli.Option) (i' : Nat)
    (h : s.argv[s.i]? = some tok) (hh : tok ≠ Ecli.helpFlag)
    (hj : s.options[j]? = some d)
    (hfirst : ∀ j' o, j' < j → s.options[j']? = some o → Ecli.matchesToken o tok = false)
    (hm : Ecli.matchesToken d tok = true)
    (ht : takeToken argc s.argv tok s.i d = some (d', i')) :
    matchedAt argc s = some j := by
  have hlt : j < s.options.length := (List.getElem?_eq_some.1 hj).1
  simp [matchedAt, h, strcmp_eq_zero, hh, inner_at _ _ _ _ _ j d hj hfirst hm, ht,
    Nat.ne_of_lt hlt]

theorem index_of_split (pre post : List Ecli.Option) (d : Ecli.Option) (tok : CStr)
    (hpre : ∀ o ∈ pre, Ecli.matchesToken o tok = false) :
    (pre ++ d :: post)[pre.length]? = some d ∧
      ∀ j' o, j' < pre.length → (pre ++ d :: post)[j']? = some o →
        Ecli.matchesToken o tok = false := by
  refine ⟨by rw [List.getElem?_append_right (Nat.le_refl _)]; simp, ?_⟩
  intro j' o hj' ho
  rw [List.getElem?_append_left hj'] at ho
  exact hpre o (List.getElem?_mem ho)

theorem inv_read {argv0 : List CStr} {s : Ecli.Loop} (hinv : Ecli.Inv argv0 s)
    (k : Nat) (hk : s.i ≤ k) : s.argv[k]? = argv0[k]? :=
  hinv.2.2.2 k (Nat.le_trans hinv.2.1 hk)

theorem body_cases (initial : List Ecli.Option) (intro_msg : CStr) (argv0 : List CStr)
    (s : Ecli.Loop) (hinv : Ecli.Inv argv0 s) (hi : s.i < argv0.length) :
    ∃ tok, argv0[s.i]? = some tok ∧ s.argv[s.i]? = some tok ∧
      ((tok = Ecli.helpFlag ∧ matchedAt argv0.length s = none ∧
          Ecli.body initial intro_msg argv0.length s = .exited (Ecli.help initial intro_msg)) ∨
       (tok ≠ Ecli.helpFlag ∧ (∀ o ∈ s.options, Ecli.matchesToken o tok = false) ∧
          matchedAt argv0.length s = none ∧
          Ecli.body initial intro_msg argv0.length s =
            .next { options := s.options, argv := s.argv.set s.nb_positional tok,
                    i := s.i + 1, nb_positional := s.nb_positional + 1 }) ∨
       (tok ≠ Ecli.helpFlag ∧ ∃ j d d' i', s.options[j]? = some d ∧
          (∀ j' o, j' < j → s.options[j']? = some o → Ecli.matchesToken o tok = false) ∧
          Ecli.matchesToken d tok = true ∧
          takeToken argv0.length s.argv tok s.i d = some (d', i') ∧
          matchedAt argv0.length s = some j ∧
          Ecli.body initial intro_msg argv0.length s =
            .next { options := s.options.set j d', argv := s.argv, i := i' + 1,
                    nb_positional := s.nb_positional })) := by
  have hlen := hinv.1
  have h0 : argv0[s.i]? = some argv0[s.i] := List.getElem?_eq_getElem hi
  have hs : s.argv[s.i]? = some argv0[s.i] := by rw [inv_read hinv s.i (Nat.le_refl _), h0]
  refine ⟨argv0[s.i], h0, hs, ?_⟩
  by_cases hh : argv0[s.i] = Ecli.helpFlag
  · exact Or.inl ⟨hh, matchedAt_help _ _ (by rw [hs, hh]), body_help _ _ _ _ (by rw [hs, hh])⟩
  · right
    rcases first_match_split s.options argv0[s.i] with hno | ⟨pre, d, post, hsplit, hpre, hd⟩
    · left
      refine ⟨hh, hno, matchedAt_positional _ _ _ hs hno,
        body_positional _ _ _ _ _ hs hh hno ?_⟩
      rw [hlen]
      exact Nat.lt_of_le_of_lt hinv.2.1 hi
    · right
      obtain ⟨hj, hfirst⟩ := index_of_split pre post d argv0[s.i] hpre
      rw [← hsplit] at hj hfirst
      obtain ⟨d', i', ht⟩ := takeToken_some argv0.length s.argv argv0[s.i] s.i d (by
        intro hne
        rw [hlen]
        omega)
      exact ⟨hh, pre.length, d, d', i', hj, hfirst, hd, ht,
        matchedAt_take _ _ _ _ _ _ _ hs hh hj hfirst hd ht,
        body_take _ _ _ _ _ _ _ _ _ hs hh hj hfirst hd ht⟩

theorem body_inv (initial : List Ecli.Option) (intro_msg : CStr) (argv0 : List CStr)
    (s s' : Ecli.Loop) (hinv : Ecli.Inv argv0 s) (hi : s.i < argv0.length)
    (hb : Ecli.body initial intro_msg argv0.length s = .next s') :
    Ecli.Inv argv0 s' ∧ s.i < s'.i ∧ s'.options.length = s.options.length := by
  obtain ⟨tok, h0, hs, hc⟩ := body_cases initial intro_msg argv0 s hinv hi
  obtain ⟨hlen, hnp, hle, hframe⟩ := hinv
  rcases hc with ⟨_, _, he⟩ | ⟨_, _, _, he⟩ | ⟨_, j, d, d', i', _, _, _, ht, _, he⟩
  · rw [he] at hb; cases hb
  · rw [he] at hb
    cases hb
    refine ⟨⟨by simpa using hlen, by simpa using hnp, hi, ?_⟩, by simp, rfl⟩
    intro k hk
    simp only at hk
    rw [List.getElem?_set_ne (by omega)]
    exact hframe k (by omega)
  · rw [he] at hb
    cases hb
    obtain ⟨_, _, hi', _⟩ := takeToken_spec _ _ _ _ _ _ _ ht
    refine ⟨⟨hlen, ?_, ?_, hframe⟩, ?_, by simp⟩
    · simp only
      rcases hi' with rfl | ⟨rfl, _, _⟩ <;> omega
    · simp only
      rcases hi' with rfl | ⟨rfl, _, h3⟩
      · omega
      · rw [hlen] at h3; omega
    · simp only
      rcases hi' with rfl | ⟨rfl, _, _⟩ <;> omega

theorem start_inv (options : List Ecli.Option) (argv : List CStr) :
    Ecli.Inv argv (Ecli.start options argv) :=
  ⟨rfl, Nat.le_refl _, Nat.zero_le _, fun _ _ => rfl⟩

/-! ## The loop states of a call -/

theorem reaches_inv (initial : List Ecli.Option) (intro_msg : CStr) (argv0 : List CStr)
    {s t : Ecli.Loop} (hr : Ecli.Reaches initial intro_msg argv0.length s t)
    (hinv : Ecli.Inv argv0 s) :
    Ecli.Inv argv0 t ∧ s.i ≤ t.i ∧ t.options.length = s.options.length := by
  induction hr with
  | refl s => exact ⟨hinv, Nat.le_refl _, rfl⟩
  | head hi hb _ ih =>
    obtain ⟨h1, h2, h3⟩ := body_inv _ _ _ _ _ hinv hi hb
    obtain ⟨h4, h5, h6⟩ := ih h1
    exact ⟨h4, by omega, by rw [h6, h3]⟩

theorem reaches_trans (initial : List Ecli.Option) (intro_msg : CStr) (argc : Nat)
    {s t u : Ecli.Loop} (h1 : Ecli.Reaches initial intro_msg argc s t)
    (h2 : Ecli.Reaches initial intro_msg argc t u) :
    Ecli.Reaches initial intro_msg argc s u := by
  induction h1 with
  | refl s => exact h2
  | head hi hb _ ih => exact Ecli.Reaches.head hi hb (ih h2)

theorem reaches_step (initial : List Ecli.Option) (intro_msg : CStr) (argc : Nat)
    {s t u : Ecli.Loop} (h1 : Ecli.Reaches initial intro_msg argc s t) (hi : t.i < argc)
    (hb : Ecli.body initial intro_msg argc t = .next u) :
    Ecli.Reaches initial intro_msg argc s u :=
  reaches_trans _ _ _ h1 (Ecli.Reaches.head hi hb (Ecli.Reaches.refl u))

theorem loop_done (initial : List Ecli.Option) (intro_msg : CStr) (argc fuel : Nat)
    (s : Ecli.Loop) (h : ¬ s.i < argc) :
    Ecli.loop initial intro_msg argc fuel s =
      .returned (Ecli.clearUnprocessed s.options) s.argv s.nb_positional := by
  rw [Ecli.loop.eq_def]
  simp [h]

theorem loop_succ (initial : List Ecli.Option) (intro_msg : CStr) (argc fuel : Nat)
    (s : Ecli.Loop) (h : s.i < argc) :
    Ecli.loop initial intro_msg argc (fuel + 1) s =
      match Ecli.body initial intro_msg argc s with
      | .fault => .fault
      | .exited out => .exited out
      | .next s => Ecli.loop initial intro_msg argc fuel s := by
  rw [Ecli.loop.eq_def]
  simp [h]

theorem loop_fuel (initial : List Ecli.Option) (intro_msg : CStr) (argv0 : List CStr)
    (f1 f2 : Nat) (s : Ecli.Loop) (hinv : Ecli.Inv argv0 s)
    (h1 : argv0.length - s.i ≤ f1) (h2 : argv0.length - s.i ≤ f2) :
    Ecli.loop initial intro_msg argv0.length f1 s =
      Ecli.loop initial intro_msg argv0.length f2 s := by
  induction f1 generalizing f2 s with
  | zero =>
    have hlt : ¬ s.i < argv0.length := by omega
    rw [loop_done _ _ _ _ _ hlt, loop_done _ _ _ _ _ hlt]
  | succ n ih =>
    by_cases hlt : s.i < argv0.length
    · cases f2 with
      | zero => omega
      | succ m =>
        rw [loop_succ _ _ _ _ _ hlt, loop_succ _ _ _ _ _ hlt]
        cases hb : Ecli.body initial intro_msg argv0.length s with
        | fault => rfl
        | exited out => rfl
        | next s' =>
          obtain ⟨h3, h4, _⟩ := body_inv _ _ _ _ _ hinv hlt hb
          exact ih m s' h3 (by omega) (by omega)
    · rw [loop_done _ _ _ _ _ hlt, loop_done _ _ _ _ _ hlt]

theorem loop_of_reaches (initial : List Ecli.Option) (intro_msg : CStr) (argv0 : List CStr)
    {s t : Ecli.Loop} (hr : Ecli.Reaches initial intro_msg argv0.length s t)
    (hinv : Ecli.Inv argv0 s) (fuel : Nat) (hf : argv0.length - s.i ≤ fuel) :
    Ecli.loop initial intro_msg argv0.length fuel s =
      Ecli.loop initial intro_msg argv0.length (argv0.length - t.i) t := by
  induction hr generalizing fuel with
  | refl s => exact loop_fuel _ _ _ _ _ _ hinv hf (Nat.le_refl _)
  | head hi hb _ ih =>
    obtain ⟨h1, h2, _⟩ := body_inv _ _ _ _ _ hinv hi hb
    cases fuel with
    | zero => omega
    | succ n =>
      rw [loop_succ _ _ _ _ _ hi, hb]
      exact ih h1 n (by omega)

theorem matchesToken_processed (o : Ecli.Option) (tok : CStr) (h : o.state = ._processed) :
    Ecli.matchesToken o tok = false := by
  simp [Ecli.matchesToken, h]

theorem body_keeps_processed (initial : List Ecli.Option) (intro_msg : CStr)
    (argv0 : List CStr) (s s' : Ecli.Loop) (hinv : Ecli.Inv argv0 s)
    (hi : s.i < argv0.length)
    (hb : Ecli.body initial intro_msg argv0.length s = .next s')
    (j : Nat) (o : Ecli.Option) (hj : s.options[j]? = some o) (ho : o.state = ._processed) :
    s'.options[j]? = some o := by
  obtain ⟨tok, _, _, hc⟩ := body_cases initial intro_msg argv0 s hinv hi
  rcases hc with ⟨_, _, he⟩ | ⟨_, _, _, he⟩ | ⟨_, j0, d, d', i', hj0, _, hm, _, _, he⟩
  · rw [he] at hb; cases hb
  · rw [he] at hb; cases hb; exact hj
  · rw [he] at hb
    cases hb
    have hne : j0 ≠ j := by
      rintro rfl
      rw [hj] at hj0
      cases hj0
      rw [matchesToken_processed o tok ho] at hm
      cases hm
    simp only
    rw [List.getElem?_set_ne hne]
    exact hj

theorem body_keeps_names (initial : List Ecli.Option) (intro_msg : CStr)
    (argv0 : List CStr) (s s' : Ecli.Loop) (hinv : Ecli.Inv argv0 s)
    (hi : s.i < argv0.length)
    (hb : Ecli.body initial intro_msg argv0.length s = .next s') :
    s'.options.map (·.name) = s.options.map (·.name) := by
  obtain ⟨tok, _, _, hc⟩ := body_cases initial intro_msg argv0 s hinv hi
  rcases hc with ⟨_, _, he⟩ | ⟨_, _, _, he⟩ | ⟨_, j0, d, d', i', hj0, _, _, ht, _, he⟩
  · rw [he] at hb; cases hb
  · rw [he] at hb; cases hb; rfl
  · rw [he] at hb
    cases hb
    obtain ⟨hn, _⟩ := takeToken_spec _ _ _ _ _ _ _ ht
    simp only
    rw [List.map_set, hn]
    apply List.ext_getElem?
    intro k
    by_cases hk : j0 = k
    · subst hk
      have hlt : j0 < s.options.length := (List.getElem?_eq_some.1 hj0).1
      rw [List.getElem?_set_self (by simpa using hlt)]
      simp [hj0]
    · rw [List.getElem?_set_ne hk]

theorem reaches_keeps_processed (initial : List Ecli.Option) (intro_msg : CStr)
    (argv0 : List CStr) {s t : Ecli.Loop}
    (hr : Ecli.Reaches initial intro_msg argv0.length s t) (hinv : Ecli.Inv argv0 s)
    (j : Nat) (o : Ecli.Option) (hj : s.options[j]? = some o) (ho : o.state = ._processed) :
    t.options[j]? = some o := by
  induction hr with
  | refl s => exact hj
  | head hi hb _ ih =>
    exact ih (body_inv _ _ _ _ _ hinv hi hb).1
      (body_keeps_processed _ _ _ _ _ hinv hi hb j o hj ho)

theorem reaches_keeps_names (initial : List Ecli.Option) (intro_msg : CStr)
    (argv0 : List CStr) {s t : Ecli.Loop}
    (hr : Ecli.Reaches initial intro_msg argv0.length s t) (hinv : Ecli.Inv argv0 s) :
    t.options.map (·.name) = s.options.map (·.name) := by
  induction hr with
  | refl s => rfl
  | head hi hb _ ih =>
    rw [ih (body_inv _ _ _ _ _ hinv hi hb).1, body_keeps_names _ _ _ _ _ hinv hi hb]

theorem reaches_linear (initial : List Ecli.Option) (intro_msg : CStr) (argc : Nat)
    {s t u : Ecli.Loop} (h1 : Ecli.Reaches initial intro_msg argc s t)
    (h2 : Ecli.Reaches initial intro_msg argc s u) (hu : ¬ u.i < argc) :
    Ecli.Reaches initial intro_msg argc t u := by
  induction h1 with
  | refl s => exact h2
  | head hi hb _ ih =>
    cases h2 with
    | refl => exact absurd hi hu
    | head _ hb' h2' =>
      rw [hb] at hb'
      cases hb'
      exact ih h2'

/-- Totality of the outer loop: with enough fuel it ends either in the help exit,
at a loop state whose token is `--help`, or in `return`, at the loop state in
which the loop condition fails. -/
theorem loop_total (initial : List Ecli.Option) (intro_msg : CStr) (argv0 : List CStr)
    (fuel : Nat) (s : Ecli.Loop) (hinv : Ecli.Inv argv0 s)
    (hf : argv0.length - s.i ≤ fuel) :
    (∃ t, Ecli.Reaches initial intro_msg argv0.length s t ∧ t.i < argv0.length ∧
        argv0[t.i]? = some Ecli.helpFlag ∧
        Ecli.loop initial intro_msg argv0.length fuel s =
          .exited (Ecli.help initial intro_msg)) ∨
    (∃ t, Ecli.Reaches initial intro_msg argv0.length s t ∧ ¬ t.i < argv0.length ∧
        Ecli.loop initial intro_msg argv0.length fuel s =
          .returned (Ecli.clearUnprocessed t.options) t.argv t.nb_positional) := by
  induction fuel generalizing s with
  | zero =>
    have hlt : ¬ s.i < argv0.length := by omega
    exact Or.inr ⟨s, Ecli.Reaches.refl s, hlt, loop_done _ _ _ _ _ hlt⟩
  | succ n ih =>
    by_cases hlt : s.i < argv0.length
    · obtain ⟨tok, h0, _, hc⟩ := body_cases initial intro_msg argv0 s hinv hlt
      have step : ∀ s', Ecli.body initial intro_msg argv0.length s = .next s' →
          (∃ t, Ecli.Reaches initial intro_msg argv0.length s t ∧ t.i < argv0.length ∧
            argv0[t.i]? = some Ecli.helpFlag ∧
            Ecli.loop initial intro_msg argv0.length (n + 1) s =
              .exited (Ecli.help initial intro_msg)) ∨
          (∃ t, Ecli.Reaches initial intro_msg argv0.length s t ∧ ¬ t.i < argv0.length ∧
            Ecli.loop initial intro_msg argv0.length (n + 1) s =
              .returned (Ecli.clearUnprocessed t.options) t.argv t.nb_positional) := by
        intro s' hb
        obtain ⟨h1, h2, _⟩ := body_inv _ _ _ _ _ hinv hlt hb
        rw [loop_succ _ _ _ _ _ hlt, hb]
        rcases ih s' h1 (by omega) with ⟨t, hr, ht, hh, hl⟩ | ⟨t, hr, ht, hl⟩
        · exact Or.inl ⟨t, Ecli.Reaches.head hlt hb hr, ht, hh, hl⟩
        · exact Or.inr ⟨t, Ecli.Reaches.head hlt hb hr, ht, hl⟩
      rcases hc with ⟨hh, _, he⟩ | ⟨_, _, _, he⟩ | ⟨_, _, _, _, _, _, _, _, _, _, he⟩
      · refine Or.inl ⟨s, Ecli.Reaches.refl s, hlt, by rw [h0, hh], ?_⟩
        rw [loop_succ _ _ _ _ _ hlt, he]
      · exact step _ he
      · exact step _ he
    · exact Or.inr ⟨s, Ecli.Reaches.refl s, hlt, loop_done _ _ _ _ _ hlt⟩

theorem clearUnprocessed_getElem? (os : List Ecli.Option) (j : Nat) :
    (Ecli.clearUnprocessed os)[j]? =
      (os[j]?).map fun opt => if opt.state ≠ ._processed then { opt with value := none } else opt := by
  simp [Ecli.clearUnprocessed]

/-- From a loop state in which option `j` is processed, the call either exits
through help or returns with that option as it is. -/
theorem loop_keeps_processed (initial : List Ecli.Option) (intro_msg : CStr)
    (argv0 : List CStr) (fuel : Nat) (s : Ecli.Loop) (hinv : Ecli.Inv argv0 s)
    (hf : argv0.length - s.i ≤ fuel) (j : Nat) (o : Ecli.Option)
    (hj : s.options[j]? = some o) (ho : o.state = ._processed) :
    Ecli.loop initial intro_msg argv0.length fuel s = .exited (Ecli.help initial intro_msg) ∨
      ∃ os av n, Ecli.loop initial intro_msg argv0.length fuel s = .returned os av n ∧
        os[j]? = some o := by
  rcases loop_total initial intro_msg argv0 fuel s hinv hf with
    ⟨_, _, _, _, hl⟩ | ⟨t, hr, _, hl⟩
  · exact Or.inl hl
  · refine Or.inr ⟨_, _, _, hl, ?_⟩
    rw [clearUnprocessed_getElem?, reaches_keeps_processed _ _ _ hr hinv j o hj ho]
    simp [ho]

theorem parse_eq_loop (initial options : List Ecli.Option) (argv : List CStr)
    (intro_msg : CStr) :
    Ecli.parse initial options argv.length argv intro_msg =
      Ecli.loop initial intro_msg argv.length argv.length (Ecli.start options argv) := rfl

theorem parse_of_reaches (initial options : List Ecli.Option) (argv : List CStr)
    (intro_msg : CStr) {s : Ecli.Loop}
    (hr : Ecli.Reaches initial intro_msg argv.length (Ecli.start options argv) s) :
    Ecli.parse initial options argv.length argv intro_msg =
      Ecli.loop initial intro_msg argv.length (argv.length - s.i) s := by
  rw [parse_eq_loop]
  exact loop_of_reaches _ _ _ hr (start_inv options argv) _ (by simp [Ecli.start])

/-- Totality of `Ecli::parse` when `argc` is the length of `argv`: the call never
faults and never runs out of fuel; it exits through help or returns. -/
theorem parse_exits_or_returns (initial options : List Ecli.Option) (argv : List CStr)
    (intro_msg : CStr) :
    Ecli.parse initial options argv.length argv intro_msg =
        .exited (Ecli.help initial intro_msg) ∨
      ∃ os av n, Ecli.parse initial options argv.length argv intro_msg = .returned os av n := by
  rw [parse_eq_loop]
  rcases loop_total initial intro_msg argv argv.length (Ecli.start options argv)
    (start_inv options argv) (by simp [Ecli.start]) with ⟨_, _, _, _, hl⟩ | ⟨t, _, _, hl⟩
  · exact Or.inl hl
  · exact Or.inr ⟨_, _, _, hl⟩

/-- What the call does with a token that an option takes: the pass that ends in
`break` rewrites that option, the scan resumes behind the tokens used, and the
call ends in the help exit or returns with the option as that pass left it. -/
theorem matched_outcome (initial options : List Ecli.Option) (argv : List CStr)
    (intro_msg : CStr) (s : Ecli.Loop)
    (hr : Ecli.Reaches initial intro_msg argv.length (Ecli.start options argv) s)
    (j : Nat) (hm : matchedAt argv.length s = some j) :
    ∃ tok d d' i', argv[s.i]? = some tok ∧ s.argv[s.i]? = some tok ∧ tok ≠ Ecli.helpFlag ∧
      s.options[j]? = some d ∧
      (∀ j' o, j' < j → s.options[j']? = some o → Ecli.matchesToken o tok = false) ∧
      Ecli.matchesToken d tok = true ∧
      takeToken argv.length s.argv tok s.i d = some (d', i') ∧
      Ecli.body initial intro_msg argv.length s =
        .next { options := s.options.set j d', argv := s.argv, i := i' + 1,
                nb_positional := s.nb_positional } ∧
      (Ecli.parse initial options argv.length argv intro_msg =
          .exited (Ecli.help initial intro_msg) ∨
        ∃ os av n, Ecli.parse initial options argv.length argv intro_msg = .returned os av n ∧
          os[j]? = some d') := by
  obtain ⟨hinv, _, _⟩ := reaches_inv _ _ _ hr (start_inv options argv)
  have hi : s.i < argv.length := by
    by_contra hge
    have hnone : s.argv[s.i]? = none := by
      apply List.getElem?_eq_none
      rw [hinv.1]
      omega
    simp [matchedAt, hnone] at hm
  obtain ⟨tok, h0, hs, hc⟩ := body_cases initial intro_msg argv s hinv hi
  rcases hc with ⟨_, hn, _⟩ | ⟨_, _, hn, _⟩ | ⟨hh, j0, d, d', i', hj, hfirst, hmt, ht, hj0, he⟩
  · rw [hn] at hm; cases hm
  · rw [hn] at hm; cases hm
  · rw [hj0] at hm
    cases hm
    refine ⟨tok, d, d', i', h0, hs, hh, hj, hfirst, hmt, ht, he, ?_⟩
    have hr' := reaches_step _ _ _ hr hi he
    obtain ⟨hinv', _, _⟩ := body_inv _ _ _ _ _ hinv hi he
    rw [parse_of_reaches _ _ _ _ hr']
    obtain ⟨_, hp, _, _⟩ := takeToken_spec _ _ _ _ _ _ _ ht
    have hlt : j < s.options.length := (List.getElem?_eq_some.1 hj).1
    exact loop_keeps_processed _ _ _ _ _ hinv' (Nat.le_refl _) j d'
      (by simp [List.getElem?_set_self hlt]) hp

theorem byteAt_self (s : CStr) : CStr.byteAt s (strlen s) = .nul := by
  have := byteAt_append s []
  simpa [strlen] using this

theorem byteAt_eq_form (name value : CStr) :
    CStr.byteAt (name ++ '=' :: value) (strlen name) = .chr '=' := by
  have := byteAt_append name ('=' :: value)
  simpa [strlen, CStr.byteAt] using this

theorem takeToken_eq_form (argc : Nat) (argv : List CStr) (i : Nat) (d : Ecli.Option)
    (value : CStr) :
    takeToken argc argv (d.name ++ '=' :: value) i d =
      some ({ d with value := some value, state := ._processed }, i) := by
  rw [takeToken, byteAt_eq_form]
  simp [strlen]

theorem takeToken_name_argument (argc : Nat) (argv : List CStr) (i : Nat) (d : Ecli.Option)
    (v : CStr) (hd : d.state = .Argument) (hi : i + 1 ≠ argc) (hv : argv[i + 1]? = some v) :
    takeToken argc argv d.name i d =
      some ({ d with value := some v, state := ._processed }, i + 1) := by
  rw [takeToken, byteAt_self]
  simp [hd, hi, hv]

theorem takeToken_name_argument_last (argc : Nat) (argv : List CStr) (i : Nat)
    (d : Ecli.Option) (hd : d.state = .Argument) (hi : i + 1 = argc) :
    takeToken argc argv d.name i d =
      some ({ d with value := some [], state := ._processed }, i) := by
  rw [takeToken, byteAt_self]
  simp [hd, hi]

theorem takeToken_name_switch (argc : Nat) (argv : List CStr) (i : Nat) (d : Ecli.Option)
    (hd : d.state = .Switch) :
    takeToken argc argv d.name i d =
      some ({ d with value := some [], state := ._processed }, i) := by
  rw [takeToken, byteAt_self]
  simp [hd]

theorem reaches_total (initial : List Ecli.Option) (intro_msg : CStr) (argc : Nat)
    {s t u : Ecli.Loop} (h1 : Ecli.Reaches initial intro_msg argc s t)
    (h2 : Ecli.Reaches initial intro_msg argc s u) :
    Ecli.Reaches initial intro_msg argc t u ∨ Ecli.Reaches initial intro_msg argc u t := by
  induction h1 with
  | refl s => exact Or.inl h2
  | head hi hb h1' ih =>
    cases h2 with
    | refl => exact Or.inr (Ecli.Reaches.head hi hb h1')
    | head _ hb' h2' =>
      rw [hb] at hb'
      cases hb'
      exact ih h2'

/-- No loop state lies strictly between a loop state and its successor: a token
that one iteration steps over is never the token of an iteration. -/
theorem not_scanned_between (initial options : List Ecli.Option) (argv : List CStr)
    (intro_msg : CStr) (s s' t : Ecli.Loop)
    (hr : Ecli.Reaches initial intro_msg argv.length (Ecli.start options argv) s)
    (hi : s.i < argv.length)
    (hb : Ecli.body initial intro_msg argv.length s = .next s')
    (ht : Ecli.Reaches initial intro_msg argv.length (Ecli.start options argv) t) :
    t.i ≤ s.i ∨ s'.i ≤ t.i := by
  obtain ⟨hinv, _, _⟩ := reaches_inv _ _ _ hr (start_inv options argv)
  obtain ⟨hinvt, _, _⟩ := reaches_inv _ _ _ ht (start_inv options argv)
  rcases reaches_total _ _ _ hr ht with h | h
  · cases h with
    | refl => exact Or.inl (Nat.le_refl _)
    | head _ hb' h' =>
      rw [hb] at hb'
      cases hb'
      obtain ⟨hinv', _, _⟩ := body_inv _ _ _ _ _ hinv hi hb
      exact Or.inr (reaches_inv _ _ _ h' hinv').2.1
  · exact Or.inl (reaches_inv _ _ _ h hinvt).2.1

/-! ## The scan of the specification and the loop of the code -/

theorem byteAt_zero_eq_chr (r : CStr) (c : Char) (h : CStr.byteAt r 0 = .chr c) :
    ∃ r', r = c :: r' := by
  cases r with
  | nil => cases h
  | cons x xs =>
    simp only [CStr.byteAt, CByte.chr.injEq] at h
    exact ⟨xs, by rw [h]⟩

theorem byteAt_zero_eq_nul (r : CStr) (h : CStr.byteAt r 0 = .nul) : r = [] := by
  cases r with
  | nil => rfl
  | cons x xs => cases h

theorem matchesToken_cases {d : Ecli.Option} {tok : CStr}
    (h : Ecli.matchesToken d tok = true) :
    d.state ≠ ._processed ∧ ((∃ value, tok = d.name ++ '=' :: value) ∨ tok = d.name) := by
  rw [matchesToken_eq_true] at h
  obtain ⟨h1, ⟨r, rfl⟩, h3⟩ := h
  refine ⟨h1, ?_⟩
  have hb : CStr.byteAt (d.name ++ r) (strlen d.name) = CStr.byteAt r 0 := byteAt_append _ _
  rw [hb] at h3
  rcases h3 with h3 | h3
  · obtain ⟨r', rfl⟩ := byteAt_zero_eq_chr r _ h3
    exact Or.inl ⟨r', rfl⟩
  · rw [byteAt_zero_eq_nul r h3]
    exact Or.inr (by simp)

theorem matchesToken_eq_form (d : Ecli.Option) (value : CStr) (h : d.state ≠ ._processed) :
    Ecli.matchesToken d (d.name ++ '=' :: value) = true := by
  rw [matchesToken_eq_true]
  exact ⟨h, ⟨_, rfl⟩, Or.inl (byteAt_eq_form _ _)⟩

theorem matchesToken_name (d : Ecli.Option) (h : d.state ≠ ._processed) :
    Ecli.matchesToken d d.name = true := by
  rw [matchesToken_eq_true]
  exact ⟨h, ⟨[], by simp⟩, Or.inr (byteAt_self _)⟩

theorem isPrefixOf_name_false (name : CStr) : (name ++ ['=']).isPrefixOf name = false := by
  rw [Bool.eq_false_iff]
  intro h
  have := (List.isPrefixOf_iff_prefix.1 h).length_le
  simp at this

theorem isPrefixOf_eq_form (name value : CStr) :
    (name ++ ['=']).isPrefixOf (name ++ '=' :: value) = true := by
  rw [List.isPrefixOf_iff_prefix]
  exact ⟨value, by simp⟩

theorem matchDescriptor_of_not_matches (d : Ecli.Option) (tok : CStr) (next : Option CStr)
    (h : Ecli.matchesToken d tok = false) :
    (if d.state = ._processed then none else Spec.matchDescriptor d tok next) = none := by
  by_cases hp : d.state = ._processed
  · simp [hp]
  · simp only [hp, if_false]
    unfold Spec.matchDescriptor
    have h1 : (d.name ++ ['=']).isPrefixOf tok = false := by
      rw [Bool.eq_false_iff]
      intro hpre
      obtain ⟨r, rfl⟩ := List.isPrefixOf_iff_prefix.1 hpre
      have : Ecli.matchesToken d (d.name ++ '=' :: r) = true := matchesToken_eq_form d r hp
      simp only [List.append_assoc, List.singleton_append] at h
      rw [this] at h
      cases h
    have h2 : tok ≠ d.name := by
      rintro rfl
      rw [matchesToken_name d hp] at h
      cases h
    simp [h1, h2]

theorem matchDescriptor_of_matches (argc : Nat) (argv : List CStr) (i : Nat)
    (d d' : Ecli.Option) (i' : Nat) (tok : CStr) (next : Option CStr)
    (hnext : next = if i + 1 = argc then none else argv[i + 1]?)
    (h : Ecli.matchesToken d tok = true)
    (ht : takeToken argc argv tok i d = some (d', i')) :
    ∃ v, Spec.matchDescriptor d tok next = some (v, decide (i' = i + 1)) ∧
      d' = { d with value := some v, state := ._processed } := by
  obtain ⟨hp, ⟨value, rfl⟩ | rfl⟩ := matchesToken_cases h
  · rw [takeToken_eq_form] at ht
    simp only [Option.some.injEq, Prod.mk.injEq] at ht
    obtain ⟨rfl, rfl⟩ := ht
    refine ⟨value, ?_, rfl⟩
    unfold Spec.matchDescriptor
    simp [isPrefixOf_eq_form]
  · unfold Spec.matchDescriptor
    rw [isPrefixOf_name_false]
    simp only [Bool.false_eq_true, if_false, if_true]
    cases hs : d.state with
    | _processed => exact absurd hs hp
    | Switch =>
      rw [takeToken_name_switch _ _ _ _ hs] at ht
      simp only [Option.some.injEq, Prod.mk.injEq] at ht
      obtain ⟨rfl, rfl⟩ := ht
      exact ⟨[], by simp, rfl⟩
    | Argument =>
      by_cases hi : i + 1 = argc
      · rw [takeToken_name_argument_last _ _ _ _ hs hi] at ht
        simp only [Option.some.injEq, Prod.mk.injEq] at ht
        obtain ⟨rfl, rfl⟩ := ht
        simp only [hi, if_true] at hnext
        subst hnext
        exact ⟨[], by simp, rfl⟩
      · simp only [hi, if_false] at hnext
        cases hv : argv[i + 1]? with
        | none =>
          rw [takeToken, byteAt_self] at ht
          simp [hs, hi, hv] at ht
        | some v =>
          rw [takeToken_name_argument _ _ _ _ v hs hi hv] at ht
          simp only [Option.some.injEq, Prod.mk.injEq] at ht
          obtain ⟨rfl, rfl⟩ := ht
          rw [hv] at hnext
          subst hnext
          exact ⟨v, by simp, rfl⟩

theorem matchToken_no_match (tok : CStr) (next : Option CStr) (os : List Ecli.Option)
    (h : ∀ o ∈ os, Ecli.matchesToken o tok = false) :
    Spec.matchToken tok next os = none := by
  induction os with
  | nil => rfl
  | cons o os ih =>
    rw [Spec.matchToken,
      matchDescriptor_of_not_matches o tok next (h o (List.mem_cons_self _ _)),
      ih (fun o' ho' => h o' (List.mem_cons_of_mem _ ho'))]
    rfl

theorem matchToken_first_match (argc : Nat) (argv : List CStr) (i : Nat)
    (tok : CStr) (next : Option CStr) (os : List Ecli.Option) (j : Nat)
    (d d' : Ecli.Option) (i' : Nat)
    (hnext : next = if i + 1 = argc then none else argv[i + 1]?)
    (hj : os[j]? = some d)
    (hfirst : ∀ j' o, j' < j → os[j']? = some o → Ecli.matchesToken o tok = false)
    (hm : Ecli.matchesToken d tok = true)
    (ht : takeToken argc argv tok i d = some (d', i')) :
    Spec.matchToken tok next os = some (os.set j d', decide (i' = i + 1)) := by
  induction os generalizing j with
  | nil => simp at hj
  | cons o os ih =>
    cases j with
    | zero =>
      simp only [List.getElem?_cons_zero, Option.some.injEq] at hj
      subst hj
      obtain ⟨v, hv, rfl⟩ := matchDescriptor_of_matches argc argv i _ d' i' tok next hnext hm ht
      have hp := (matchesToken_cases hm).1
      rw [Spec.matchToken]
      simp [hp, hv]
    | succ j =>
      have ho : Ecli.matchesToken o tok = false := hfirst 0 o (Nat.succ_pos _) (by simp)
      have hj' : os[j]? = some d := by simpa using hj
      have hfirst' : ∀ j' o, j' < j → os[j']? = some o → Ecli.matchesToken o tok = false :=
        fun j' o' hlt ho' => hfirst (j' + 1) o' (Nat.succ_lt_succ hlt) (by simpa using ho')
      rw [Spec.matchToken, matchDescriptor_of_not_matches o tok next ho, ih j hj' hfirst']
      simp

theorem inv_drop {argv0 : List CStr} {s : Ecli.Loop} (hinv : Ecli.Inv argv0 s) :
    s.argv.drop s.nb_positional = argv0.drop s.nb_positional := by
  apply List.ext_getElem?
  intro k
  rw [List.getElem?_drop, List.getElem?_drop]
  exact hinv.2.2.2 _ (Nat.le_add_right _ _)

theorem take_set_succ {α : Type} (l : List α) (k : Nat) (x : α) (hk : k < l.length) :
    (l.set k x).take (k + 1) = l.take k ++ [x] := by
  induction l generalizing k with
  | nil => simp at hk
  | cons a l ih =>
    cases k with
    | zero => simp
    | succ k =>
      have hk' : k < l.length := by simpa using hk
      simp [ih k hk']

theorem scan_true_drop (os : List Ecli.Option) (argv0 : List CStr) (k : Nat)
    (hk : k < argv0.length) :
    Spec.scan true os (argv0.drop k) = Spec.scan false os (argv0.drop (k + 1)) := by
  rw [List.drop_eq_getElem_cons hk, Spec.scan]

/-- The loop of the code refines the scan of the specification: from a loop state
that satisfies the loop invariant, with enough fuel, the loop exits through help
exactly when the scan of the remaining tokens meets the help trigger, and
otherwise returns the descriptors of the scan, with the positional tokens of the
scan written behind those already there and the rest of the vector untouched. -/
theorem loop_eq_scan (initial : List Ecli.Option) (intro_msg : CStr) (argv0 : List CStr)
    (fuel : Nat) (s : Ecli.Loop) (hinv : Ecli.Inv argv0 s)
    (hf : argv0.length - s.i ≤ fuel) :
    Ecli.loop initial intro_msg argv0.length fuel s =
      match Spec.scan false s.options (argv0.drop s.i) with
      | none => .exited (Ecli.help initial intro_msg)
      | some (os, pos) =>
        .returned (Ecli.clearUnprocessed os)
          (s.argv.take s.nb_positional ++ pos ++ argv0.drop (s.nb_positional + pos.length))
          (s.nb_positional + pos.length) := by
  induction fuel generalizing s with
  | zero =>
    have hlt : ¬ s.i < argv0.length := by omega
    have hd : argv0.drop s.i = [] := List.drop_eq_nil_of_le (by omega)
    rw [loop_done _ _ _ _ _ hlt, hd, Spec.scan]
    simp only [List.append_nil, List.length_nil, Nat.add_zero]
    rw [← inv_drop hinv, List.take_append_drop]
  | succ n ih =>
    by_cases hlt : s.i < argv0.length
    · obtain ⟨tok, h0, hs, hc⟩ := body_cases initial intro_msg argv0 s hinv hlt
      have htok : argv0[s.i] = tok := by
        rw [List.getElem?_eq_getElem hlt] at h0
        exact Option.some.inj h0
      have hd : argv0.drop s.i = tok :: argv0.drop (s.i + 1) := by
        rw [List.drop_eq_getElem_cons hlt, htok]
      rw [loop_succ _ _ _ _ _ hlt, hd]
      rcases hc with ⟨hh, _, he⟩ | ⟨hh, hno, _, he⟩ |
        ⟨hh, j, d, d', i', hj, hfirst, hm, ht, _, he⟩
      · rw [he, Spec.scan]
        simp [hh]
      · obtain ⟨hinv', _, _⟩ := body_inv _ _ _ _ _ hinv hlt he
        rw [he, Spec.scan]
        simp only [hh, if_false, matchToken_no_match tok _ s.options hno]
        rw [ih _ hinv' (by simp only; omega)]
        simp only
        have hnp : s.nb_positional < s.argv.length := by
          rw [hinv.1]; exact Nat.lt_of_le_of_lt hinv.2.1 hlt
        cases hsc : Spec.scan false s.options (List.drop (s.i + 1) argv0) with
        | none => simp
        | some r =>
          obtain ⟨os, pos⟩ := r
          simp only [Option.map_some', List.length_cons]
          rw [take_set_succ _ _ _ hnp]
          simp [Nat.add_assoc, Nat.add_comm 1]
      · obtain ⟨hinv', _, _⟩ := body_inv _ _ _ _ _ hinv hlt he
        obtain ⟨_, _, hi', _⟩ := takeToken_spec _ _ _ _ _ _ _ ht
        have hnext : (argv0.drop (s.i + 1)).head? =
            if s.i + 1 = argv0.length then none else s.argv[s.i + 1]? := by
          rw [List.head?_drop, inv_read hinv (s.i + 1) (Nat.le_succ _)]
          by_cases hlast : s.i + 1 = argv0.length
          · simp [hlast]
          · simp [hlast]
        rw [he, Spec.scan]
        simp only [hh, if_false,
          matchToken_first_match argv0.length s.argv s.i tok _ s.options j d d' i' hnext
            hj hfirst hm ht]
        rw [ih _ hinv' (by simp only; rcases hi' with rfl | ⟨rfl, _, _⟩ <;> omega)]
        simp only
        rcases hi' with rfl | ⟨rfl, _, h3⟩
        · simp
        · rw [hinv.1] at h3
          simp only [decide_True]
          rw [scan_true_drop _ _ _ h3]
    · have hd : argv0.drop s.i = [] := List.drop_eq_nil_of_le (by omega)
      rw [loop_done _ _ _ _ _ hlt, hd, Spec.scan]
      simp only [List.append_nil, List.length_nil, Nat.add_zero]
      rw [← inv_drop hinv, List.take_append_drop]

theorem parse_eq_scan (initial options : List Ecli.Option) (argv : List CStr)
    (intro_msg : CStr) :
    Ecli.parse initial options argv.length argv intro_msg =
      match Spec.scan false options argv with
      | none => .exited (Ecli.help initial intro_msg)
      | some (os, pos) =>
        .returned (Ecli.clearUnprocessed os) (pos ++ argv.drop pos.length) pos.length := by
  rw [parse_eq_loop, loop_eq_scan _ _ _ _ _ (start_inv options argv) (by simp [Ecli.start])]
  simp [Ecli.start]

/-- What the call does with the token of a loop state that option `j` takes, the
pass that ends in `break` being known. -/
theorem taken_outcome (initial options : List Ecli.Option) (argv : List CStr)
    (intro_msg : CStr) (s : Ecli.Loop)
    (hr : Ecli.Reaches initial intro_msg argv.length (Ecli.start options argv) s)
    (j : Nat) (hm : matchedAt argv.length s = some j)
    (tok : CStr) (d d' : Ecli.Option) (i' : Nat)
    (htok : argv[s.i]? = some tok) (hj : s.options[j]? = some d)
    (ht : takeToken argv.length s.argv tok s.i d = some (d', i')) :
    Ecli.body initial intro_msg argv.length s =
        .next { options := s.options.set j d', argv := s.argv, i := i' + 1,
                nb_positional := s.nb_positional } ∧
      (Ecli.parse initial options argv.length argv intro_msg =
          .exited (Ecli.help initial intro_msg) ∨
        ∃ os av n, Ecli.parse initial options argv.length argv intro_msg = .returned os av n ∧
          os[j]? = some d') := by
  obtain ⟨tok0, d0, d0', i0', h1, _, _, h2, _, _, h3, h4, h5⟩ :=
    matched_outcome initial options argv intro_msg s hr j hm
  rw [htok] at h1
  cases h1
  rw [hj] at h2
  cases h2
  rw [ht] at h3
  cases h3
  exact ⟨h4, h5⟩

/-! ## The claims -/

/-- C2 (`--name value` form).  Let `s` be a loop state of the call (the scan is
at token `argv[s.i]`), let the option that takes this token be `d`, of kind
`Argument` (so not consumed before: this is the first and only token matched to
`d`), let the token be exactly the name of `d` and let a token `v` follow it.
Then the iteration stores `v`, whatever it is, as the value of `d`, marks `d`
processed, changes no other option, leaves `argv` and `nb_positional` as they
are and resumes the scan two tokens further; the token `v` is the token of no
iteration (it is not compared with `--help`, not matched against the options,
not counted as positional); and the call ends in the help exit or returns with
`d` holding the value `v`. -/
theorem parse_argument_takes_next_token (initial options : List Ecli.Option)
    (argv : List CStr) (intro_msg : CStr) (s : Ecli.Loop) (j : Nat) (d : Ecli.Option)
    (v : CStr)
    (hr : Ecli.Reaches initial intro_msg argv.length (Ecli.start options argv) s)
    (hm : matchedAt argv.length s = some j)
    (hj : s.options[j]? = some d) (hd : d.state = .Argument)
    (htok : argv[s.i]? = some d.name) (hnext : argv[s.i + 1]? = some v) :
    Ecli.body initial intro_msg argv.length s =
        .next { options := s.options.set j { d with value := some v, state := ._processed },
                argv := s.argv, i := s.i + 2, nb_positional := s.nb_positional } ∧
      (∀ t, Ecli.Reaches initial intro_msg argv.length (Ecli.start options argv) t →
        t.i ≠ s.i + 1) ∧
      (Ecli.parse initial options argv.length argv intro_msg =
          .exited (Ecli.help initial intro_msg) ∨
        ∃ os av n, Ecli.parse initial options argv.length argv intro_msg = .returned os av n ∧
          os[j]? = some { d with value := some v, state := ._processed }) := by
  obtain ⟨hinv, _, _⟩ := reaches_inv _ _ _ hr (start_inv options argv)
  have hlt : s.i + 1 < argv.length := (List.getElem?_eq_some.1 hnext).1
  have hv : s.argv[s.i + 1]? = some v := by
    rw [inv_read hinv (s.i + 1) (Nat.le_succ _), hnext]
  have ht := takeToken_name_argument argv.length s.argv s.i d v hd (Nat.ne_of_lt hlt) hv
  obtain ⟨hb, hp⟩ := taken_outcome initial options argv intro_msg s hr j hm d.name d _ _
    htok hj ht
  refine ⟨hb, ?_, hp⟩
  intro t htr
  rcases not_scanned_between initial options argv intro_msg s _ t hr (by omega) hb htr
    with h | h
  · omega
  · simp only at h
    omega

/-- Witness of C2 on the options of `hello.cpp`: in `--hello --help` the token
`--help` is the value of `--hello`. -/
theorem parse_argument_takes_next_token_witness :
    Ecli.body MyOptions [] (argvOf ["--hello", "--help"]).length
        (Ecli.start MyOptions (argvOf ["--hello", "--help"])) =
        .next { options := (Ecli.start MyOptions (argvOf ["--hello", "--help"])).options.set 0
                  { name := "--hello".toList, state := ._processed,
                    value := some "--help".toList },
                argv := argvOf ["--hello", "--help"], i := 0 + 2, nb_positional := 0 } ∧
      (∀ t, Ecli.Reaches MyOptions [] (argvOf ["--hello", "--help"]).length
          (Ecli.start MyOptions (argvOf ["--hello", "--help"])) t → t.i ≠ 0 + 1) ∧
      (Ecli.parse MyOptions MyOptions (argvOf ["--hello", "--help"]).length
          (argvOf ["--hello", "--help"]) [] = .exited (Ecli.help MyOptions []) ∨
        ∃ os av n, Ecli.parse MyOptions MyOptions (argvOf ["--hello", "--help"]).length
            (argvOf ["--hello", "--help"]) [] = .returned os av n ∧
          os[0]? = some { name := "--hello".toList, state := ._processed,
                          value := some "--help".toList }) :=
  parse_argument_takes_next_token MyOptions MyOptions (argvOf ["--hello", "--help"]) []
    (Ecli.start MyOptions (argvOf ["--hello", "--help"])) 0
    { name := "--hello".toList, state := .Argument,
      value := some "Greets the given name.".toList } "--help".toList
    (Ecli.Reaches.refl _) (by decide) rfl rfl rfl rfl

/-- C3 (Flag form).  Let `s` be a loop state of the call, let the option that
takes the token `argv[s.i]` be `d`, of kind `Switch` (so not consumed before),
and let the token be exactly the name of `d`.  Then the iteration sets the value
of `d` to the empty string, marks `d` processed, changes nothing else and
consumes exactly one token: the next loop state of the call is at `s.i + 1`, so
the token that follows is the token of the next iteration and is scanned like
any other; and the call ends in the help exit or returns with `d` holding the
empty string. -/
theorem parse_switch_takes_one_token (initial options : List Ecli.Option)
    (argv : List CStr) (intro_msg : CStr) (s : Ecli.Loop) (j : Nat) (d : Ecli.Option)
    (hr : Ecli.Reaches initial intro_msg argv.length (Ecli.start options argv) s)
    (hm : matchedAt argv.length s = some j)
    (hj : s.options[j]? = some d) (hd : d.state = .Switch)
    (htok : argv[s.i]? = some d.name) :
    Ecli.body initial intro_msg argv.length s =
        .next { options := s.options.set j { d with value := some [], state := ._processed },
                argv := s.argv, i := s.i + 1, nb_positional := s.nb_positional } ∧
      Ecli.Reaches initial intro_msg argv.length (Ecli.start options argv)
        { options := s.options.set j { d with value := some [], state := ._processed },
          argv := s.argv, i := s.i + 1, nb_positional := s.nb_positional } ∧
      (Ecli.parse initial options argv.length argv intro_msg =
          .exited (Ecli.help initial intro_msg) ∨
        ∃ os av n, Ecli.parse initial options argv.length argv intro_msg = .returned os av n ∧
          os[j]? = some { d with value := some [], state := ._processed }) := by
  have hlt : s.i < argv.length := (List.getElem?_eq_some.1 htok).1
  have ht := takeToken_name_switch argv.length s.argv s.i d hd
  obtain ⟨hb, hp⟩ := taken_outcome initial options argv intro_msg s hr j hm d.name d _ _
    htok hj ht
  exact ⟨hb, reaches_step _ _ _ hr hlt hb, hp⟩

/-- Witness of C3 on the options of `hello.cpp`: `--french` followed by a
positional token. -/
theorem parse_switch_takes_one_token_witness :
    Ecli.body MyOptions [] (argvOf ["--french", "x"]).length
        (Ecli.start MyOptions (argvOf ["--french", "x"])) =
        .next { options := (Ecli.start MyOptions (argvOf ["--french", "x"])).options.set 2
                  { name := "--french".toList, state := ._processed, value := some [] },
                argv := argvOf ["--french", "x"], i := 0 + 1, nb_positional := 0 } ∧
      Ecli.Reaches MyOptions [] (argvOf ["--french", "x"]).length
        (Ecli.start MyOptions (argvOf ["--french", "x"]))
        { options := (Ecli.start MyOptions (argvOf ["--french", "x"])).options.set 2
            { name := "--french".toList, state := ._processed, value := some [] },
          argv := argvOf ["--french", "x"], i := 0 + 1, nb_positional := 0 } ∧
      (Ecli.parse MyOptions MyOptions (argvOf ["--french", "x"]).length
          (argvOf ["--french", "x"]) [] = .exited (Ecli.help MyOptions []) ∨
        ∃ os av n, Ecli.parse MyOptions MyOptions (argvOf ["--french", "x"]).length
            (argvOf ["--french", "x"]) [] = .returned os av n ∧
          os[2]? = some { name := "--french".toList, state := ._processed,
                          value := some [] }) :=
  parse_switch_takes_one_token MyOptions MyOptions (argvOf ["--french", "x"]) []
    (Ecli.start MyOptions (argvOf ["--french", "x"])) 2
    { name := "--french".toList, state := .Switch, value := some "Greets in French.".toList }
    (Ecli.Reaches.refl _) (by decide) rfl rfl rfl

/-- C10 (missing value).  Let `s` be a loop state of the call, let the option
that takes the token `argv[s.i]` be `d`, of kind `Argument` (so not consumed
before), let the token be exactly the name of `d` and let it be the last token
of the vector.  Then the iteration does not fault (the slot `argv[argc]` is not
read: every read of `argv` in the model is bounds-checked), it sets the value
of `d` to the empty string, and the call returns, with `d` processed and holding
the empty string, not `nullptr`. -/
theorem parse_argument_last_token (initial options : List Ecli.Option)
    (argv : List CStr) (intro_msg : CStr) (s : Ecli.Loop) (j : Nat) (d : Ecli.Option)
    (hr : Ecli.Reaches initial intro_msg argv.length (Ecli.start options argv) s)
    (hm : matchedAt argv.length s = some j)
    (hj : s.options[j]? = some d) (hd : d.state = .Argument)
    (htok : argv[s.i]? = some d.name) (hlast : s.i + 1 = argv.length) :
    Ecli.body initial intro_msg argv.length s =
        .next { options := s.options.set j { d with value := some [], state := ._processed },
                argv := s.argv, i := argv.length, nb_positional := s.nb_positional } ∧
      ∃ os, Ecli.parse initial options argv.length argv intro_msg =
          .returned os s.argv s.nb_positional ∧
        os[j]? = some { name := d.name, state := ._processed, value := some [] } := by
  have hlt : s.i < argv.length := (List.getElem?_eq_some.1 htok).1
  have ht := takeToken_name_argument_last argv.length s.argv s.i d hd hlast
  obtain ⟨hb, _⟩ := taken_outcome initial options argv intro_msg s hr j hm d.name d _ _
    htok hj ht
  rw [hlast] at hb
  refine ⟨hb, ?_⟩
  have hr' := reaches_step _ _ _ hr hlt hb
  rw [parse_of_reaches _ _ _ _ hr', loop_done _ _ _ _ _ (by simp)]
  refine ⟨_, rfl, ?_⟩
  have hjlt : j < s.options.length := (List.getElem?_eq_some.1 hj).1
  rw [clearUnprocessed_getElem?]
  simp [List.getElem?_set_self hjlt]

/-- Witness of C10 on the options of `hello.cpp`: `--hello` as the only token. -/
theorem parse_argument_last_token_witness :
    Ecli.body MyOptions [] (argvOf ["--hello"]).length
        (Ecli.start MyOptions (argvOf ["--hello"])) =
        .next { options := (Ecli.start MyOptions (argvOf ["--hello"])).options.set 0
                  { name := "--hello".toList, state := ._processed, value := some [] },
                argv := argvOf ["--hello"], i := (argvOf ["--hello"]).length,
                nb_positional := 0 } ∧
      ∃ os, Ecli.parse MyOptions MyOptions (argvOf ["--hello"]).length
            (argvOf ["--hello"]) [] = .returned os (argvOf ["--hello"]) 0 ∧
        os[0]? = some { name := "--hello".toList, state := ._processed, value := some [] } :=
  parse_argument_last_token MyOptions MyOptions (argvOf ["--hello"]) []
    (Ecli.start MyOptions (argvOf ["--hello"])) 0
    { name := "--hello".toList, state := .Argument,
      value := some "Greets the given name.".toList }
    (Ecli.Reaches.refl _) (by decide) rfl rfl rfl rfl

theorem eq_form_ne_helpFlag (name value : CStr) : name ++ '=' :: value ≠ Ecli.helpFlag := by
  intro h
  have hmem : '=' ∈ name ++ '=' :: value := by simp
  rw [h] at hmem
  revert hmem
  decide

theorem shadows_of_matches_eq_form (o : Ecli.Option) (name value : CStr)
    (h : Ecli.matchesToken o (name ++ '=' :: value) = true) : Ecli.Shadows o.name name := by
  obtain ⟨_, ⟨value', h'⟩ | h'⟩ := matchesToken_cases h
  · rcases List.append_eq_append_iff.1 h' with ⟨a, ha, hb⟩ | ⟨c, hc, hd⟩
    · cases a with
      | nil => exact Or.inl (by simpa using ha)
      | cons x a =>
        simp only [List.cons_append, List.cons.injEq] at hb
        obtain ⟨hx, _⟩ := hb
        subst hx
        exact Or.inr (Or.inr ⟨a, by rw [ha]; simp⟩)
    · cases c with
      | nil => exact Or.inl (by simpa using hc.symm)
      | cons x c =>
        simp only [List.cons_append, List.cons.injEq] at hd
        obtain ⟨hx, _⟩ := hd
        subst hx
        exact Or.inr (Or.inl ⟨c, by rw [hc]; simp⟩)
  · exact Or.inr (Or.inr ⟨value, by rw [← h']; simp⟩)

theorem reaches_name_at (initial options : List Ecli.Option) (argv : List CStr)
    (intro_msg : CStr) (s : Ecli.Loop)
    (hr : Ecli.Reaches initial intro_msg argv.length (Ecli.start options argv) s)
    (j : Nat) (d : Ecli.Option) (hj : s.options[j]? = some d) :
    ∃ d0, options[j]? = some d0 ∧ d0.name = d.name := by
  have hn := reaches_keeps_names _ _ _ hr (start_inv options argv)
  have h1 : (s.options.map (·.name))[j]? = some d.name := by simp [hj]
  rw [hn] at h1
  simp only [Ecli.start, List.getElem?_map, Option.map_eq_some'] at h1
  exact h1

/-- C1, as amended (`--name=value` form).  For an option set with distinct,
non-shadowing names: let `s` be a loop state of the call (so the token
`argv[s.i]` is scanned, not taken as the value of the option before it), let the
token have the form `name=value` for the name of an option `d` that is not
consumed yet.  Then `d` is the option that takes the token, the iteration stores
exactly `value` (the empty string for `name=`) in `d`, marks it processed and
consumes this one token; and the call ends in the help exit or returns with `d`
holding `value`. -/
theorem parse_eq_form_sets_value (initial options : List Ecli.Option)
    (argv : List CStr) (intro_msg : CStr) (s : Ecli.Loop) (j : Nat) (d : Ecli.Option)
    (value : CStr) (hns : Ecli.NoShadow options)
    (hr : Ecli.Reaches initial intro_msg argv.length (Ecli.start options argv) s)
    (hj : s.options[j]? = some d) (hd : d.state ≠ ._processed)
    (htok : argv[s.i]? = some (d.name ++ '=' :: value)) :
    matchedAt argv.length s = some j ∧
      Ecli.body initial intro_msg argv.length s =
        .next { options := s.options.set j { d with value := some value, state := ._processed },
                argv := s.argv, i := s.i + 1, nb_positional := s.nb_positional } ∧
      (Ecli.parse initial options argv.length argv intro_msg =
          .exited (Ecli.help initial intro_msg) ∨
        ∃ os av n, Ecli.parse initial options argv.length argv intro_msg = .returned os av n ∧
          os[j]? = some { d with value := some value, state := ._processed }) := by
  obtain ⟨hinv, _, _⟩ := reaches_inv _ _ _ hr (start_inv options argv)
  have hs : s.argv[s.i]? = some (d.name ++ '=' :: value) := by
    rw [inv_read hinv s.i (Nat.le_refl _), htok]
  have hfirst : ∀ j' o, j' < j → s.options[j']? = some o →
      Ecli.matchesToken o (d.name ++ '=' :: value) = false := by
    intro j' o hlt ho
    rw [Bool.eq_false_iff]
    intro hmt
    obtain ⟨d0, hd0, hn0⟩ := reaches_name_at _ _ _ _ _ hr j d hj
    obtain ⟨o0, ho0, hn0'⟩ := reaches_name_at _ _ _ _ _ hr j' o ho
    have hsh := shadows_of_matches_eq_form o d.name value hmt
    rw [← hn0, ← hn0'] at hsh
    exact hns j' j o0 d0 ho0 hd0 (Nat.ne_of_lt hlt) hsh
  have ht := takeToken_eq_form argv.length s.argv s.i d value
  have hm : matchedAt argv.length s = some j :=
    matchedAt_take _ _ _ _ _ _ _ hs (eq_form_ne_helpFlag _ _) hj hfirst
      (matchesToken_eq_form d value hd) ht
  exact ⟨hm, taken_outcome initial options argv intro_msg s hr j hm _ d _ _ htok hj ht⟩

theorem noShadow_MyOptions : Ecli.NoShadow MyOptions := by
  intro j j' o o' hj hj' hne
  have hlt : j < 3 := (List.getElem?_eq_some.1 hj).1
  have hlt' : j' < 3 := (List.getElem?_eq_some.1 hj').1
  unfold Ecli.Shadows
  interval_cases j <;> interval_cases j' <;>
    first
    | exact absurd rfl hne
    | (simp only [MyOptions, List.getElem?_cons_zero, List.getElem?_cons_succ,
        Option.some.injEq] at hj hj'
       subst hj
       subst hj'
       decide)

/-- Witness of C1 as amended, on the options of `hello.cpp`: the token
`--hello=Ada`. -/
theorem parse_eq_form_sets_value_witness :
    matchedAt (argvOf ["--hello=Ada"]).length (Ecli.start MyOptions (argvOf ["--hello=Ada"])) =
        some 0 ∧
      Ecli.body MyOptions [] (argvOf ["--hello=Ada"]).length
          (Ecli.start MyOptions (argvOf ["--hello=Ada"])) =
        .next { options := (Ecli.start MyOptions (argvOf ["--hello=Ada"])).options.set 0
                  { name := "--hello".toList, state := ._processed,
                    value := some "Ada".toList },
                argv := argvOf ["--hello=Ada"], i := 0 + 1, nb_positional := 0 } ∧
      (Ecli.parse MyOptions MyOptions (argvOf ["--hello=Ada"]).length
          (argvOf ["--hello=Ada"]) [] = .exited (Ecli.help MyOptions []) ∨
        ∃ os av n, Ecli.parse MyOptions MyOptions (argvOf ["--hello=Ada"]).length
            (argvOf ["--hello=Ada"]) [] = .returned os av n ∧
          os[0]? = some { name := "--hello".toList, state := ._processed,
                          value := some "Ada".toList }) :=
  parse_eq_form_sets_value MyOptions MyOptions (argvOf ["--hello=Ada"]) []
    (Ecli.start MyOptions (argvOf ["--hello=Ada"])) 0
    { name := "--hello".toList, state := .Argument,
      value := some "Greets the given name.".toList } "Ada".toList
    noShadow_MyOptions (Ecli.Reaches.refl _) rfl (by decide) rfl

/-- C1, counterexample.  The option set with the single option `--name` is
freshly declared and has distinct, non-shadowing names; the vector
`--name=a --name=b` contains the token `--name=b`, of the form `name=value` with
value `b`; the call returns, and the value of `--name` is then `a`, not `b`: the
option was consumed by the first token, the second one is positional. -/
theorem parse_eq_form_later_token_ignored :
    Ecli.Fresh nameOption ∧ Ecli.NoShadow nameOption ∧
      "--name".toList ++ '=' :: "b".toList ∈ argvOf ["--name=a", "--name=b"] ∧
      Ecli.parse nameOption nameOption 2 (argvOf ["--name=a", "--name=b"]) [] =
        .returned
          [ { name := "--name".toList, state := ._processed, value := some "a".toList } ]
          (argvOf ["--name=b", "--name=b"]) 1 ∧
      (some "a".toList : CharPtr) ≠ some "b".toList := by
  refine ⟨?_, ?_, by decide, by rfl, by decide⟩
  · intro o ho
    simp only [nameOption, List.mem_singleton] at ho
    subst ho
    decide
  · intro j j' o o' hj hj' hne
    have hlt : j < 1 := (List.getElem?_eq_some.1 hj).1
    have hlt' : j' < 1 := (List.getElem?_eq_some.1 hj').1
    omega

/-- C6, counterexample.  With the options declared in the order `--hello`,
`--hello-world` (kinds of `hello.cpp`), the first declared option whose name is
a prefix of the token `--hello-world` is `--hello`; it does not win: the call
leaves it unset and consumes `--hello-world`, exactly as with the other
declaration order. -/
theorem parse_hello_world_prefix_does_not_win :
    "--hello".toList <+: "--hello-world".toList ∧
      Ecli.parse (helloFirst .Argument .Switch none none)
          (helloFirst .Argument .Switch none none) 1 (argvOf ["--hello-world"]) [] =
        .returned
          [ { name := "--hello".toList, state := .Argument, value := none },
            { name := "--hello-world".toList, state := ._processed, value := some [] } ]
          (argvOf ["--hello-world"]) 0 ∧
      Ecli.parse (helloWorldFirst .Argument .Switch none none)
          (helloWorldFirst .Argument .Switch none none) 1 (argvOf ["--hello-world"]) [] =
        .returned
          [ { name := "--hello-world".toList, state := ._processed, value := some [] },
            { name := "--hello".toList, state := .Argument, value := none } ]
          (argvOf ["--hello-world"]) 0 := by
  refine ⟨by decide, by rfl, by rfl⟩

/-- C6, as amended.  Whatever the kinds (`Argument` or `Switch`) and description
texts of the two options, in both declaration orders the call on the single
token `--hello-world` consumes the option `--hello-world`, giving it the empty
string, and leaves `--hello` unset: the name `--hello` is a prefix of the token
but is followed there by `-`, so that pass of the inner loop ends in `continue`.
The declaration order does not change the match for this token. -/
theorem parse_hello_world_either_order (initial : List Ecli.Option) (intro_msg : CStr)
    (k1 k2 : Ecli.OptionState) (v1 v2 : CharPtr)
    (h1 : k1 ≠ ._processed) (h2 : k2 ≠ ._processed) :
    Ecli.parse initial (helloFirst k1 k2 v1 v2) 1 (argvOf ["--hello-world"]) intro_msg =
        .returned
          [ { name := "--hello".toList, state := k1, value := none },
            { name := "--hello-world".toList, state := ._processed, value := some [] } ]
          (argvOf ["--hello-world"]) 0 ∧
      Ecli.parse initial (helloWorldFirst k1 k2 v1 v2) 1 (argvOf ["--hello-world"]) intro_msg =
        .returned
          [ { name := "--hello-world".toList, state := ._processed, value := some [] },
            { name := "--hello".toList, state := k1, value := none } ]
          (argvOf ["--hello-world"]) 0 := by
  cases k1 <;> cases k2 <;> first
    | exact absurd rfl h1
    | exact absurd rfl h2
    | exact ⟨rfl, rfl⟩

/-- Witness of C6 as amended, with the kinds and texts of `hello.cpp`. -/
theorem parse_hello_world_either_order_witness :
    Ecli.parse MyOptions
        (helloFirst .Argument .Switch (some "Greets the given name.".toList) none) 1
        (argvOf ["--hello-world"]) helloIntro =
        .returned
          [ { name := "--hello".toList, state := .Argument, value := none },
            { name := "--hello-world".toList, state := ._processed, value := some [] } ]
          (argvOf ["--hello-world"]) 0 ∧
      Ecli.parse MyOptions
        (helloWorldFirst .Argument .Switch (some "Greets the given name.".toList) none) 1
        (argvOf ["--hello-world"]) helloIntro =
        .returned
          [ { name := "--hello-world".toList, state := ._processed, value := some [] },
            { name := "--hello".toList, state := .Argument, value := none } ]
          (argvOf ["--hello-world"]) 0 :=
  parse_hello_world_either_order MyOptions helloIntro .Argument .Switch
    (some "Greets the given name.".toList) none (by decide) (by decide)

/-- C8, counterexample.  On the options of `hello.cpp` and the vector
`prog --hello-world --french` the call returns the positional count 1, not 0:
the token `prog` matches no option and is counted. -/
theorem hello_example_count_is_one :
    ∃ os av n, Ecli.parse MyOptions MyOptions 3
        (argvOf ["prog", "--hello-world", "--french"]) helloIntro = .returned os av n ∧
      n = 1 ∧ n ≠ 0 :=
  ⟨_, _, _, by rfl, rfl, by decide⟩

/-- C8, as amended.  On the options of `hello.cpp` and the vector
`prog --hello-world --french` the call leaves `hello` absent, sets `helloworld`
and `french` to the empty string and returns the positional count 1, the
positional token being `prog` in slot 0. -/
theorem hello_example_outcome :
    Ecli.parse MyOptions MyOptions 3 (argvOf ["prog", "--hello-world", "--french"])
        helloIntro =
      .returned
        [ { name := "--hello".toList, state := .Argument, value := none },
          { name := "--hello-world".toList, state := ._processed, value := some [] },
          { name := "--french".toList, state := ._processed, value := some [] } ]
        (argvOf ["prog", "--hello-world", "--french"]) 1 := by
  rfl

/-- C7, counterexample.  The vector `--hello --help` contains the token `--help`,
and the call on the options of `hello.cpp` does not exit through help: it
returns the positional count 0, with `--help` as the value of `--hello`. -/
theorem parse_help_as_value_returns :
    Ecli.helpFlag ∈ argvOf ["--hello", "--help"] ∧
      Ecli.parse MyOptions MyOptions 2 (argvOf ["--hello", "--help"]) helloIntro =
        .returned
          [ { name := "--hello".toList, state := ._processed, value := some Ecli.helpFlag },
            { name := "--hello-world".toList, state := .Switch, value := none },
            { name := "--french".toList, state := .Switch, value := none } ]
          (argvOf ["--hello", "--help"]) 0 := by
  refine ⟨by decide, by rfl⟩

/-- The call exits through help exactly when the token of some loop state of the
call is `--help`. -/
theorem exits_iff_help_state (initial options : List Ecli.Option) (argv : List CStr)
    (intro_msg : CStr) :
    Ecli.parse initial options argv.length argv intro_msg =
        .exited (Ecli.help initial intro_msg) ↔
      ∃ s, Ecli.Reaches initial intro_msg argv.length (Ecli.start options argv) s ∧
        argv[s.i]? = some Ecli.helpFlag := by
  constructor
  · intro h
    rw [parse_eq_loop] at h
    rcases loop_total initial intro_msg argv argv.length (Ecli.start options argv)
      (start_inv options argv) (by simp [Ecli.start]) with ⟨t, hr, _, hh, _⟩ | ⟨t, _, _, hl⟩
    · exact ⟨t, hr, hh⟩
    · rw [hl] at h
      cases h
  · rintro ⟨s, hr, hh⟩
    obtain ⟨hinv, _, _⟩ := reaches_inv _ _ _ hr (start_inv options argv)
    have hlt : s.i < argv.length := (List.getElem?_eq_some.1 hh).1
    obtain ⟨k, hk⟩ : ∃ k, argv.length - s.i = k + 1 := ⟨argv.length - s.i - 1, by omega⟩
    rw [parse_of_reaches _ _ _ _ hr, hk, loop_succ _ _ _ _ _ hlt,
      body_help _ _ _ _ (by rw [inv_read hinv s.i (Nat.le_refl _), hh])]

theorem scan_sublist (b : Bool) (os ds : List Ecli.Option) (argv pos : List CStr)
    (h : Spec.scan b os argv = some (ds, pos)) : pos.Sublist argv := by
  induction argv generalizing b os ds pos with
  | nil =>
    cases b <;> simp only [Spec.scan, Option.some.injEq, Prod.mk.injEq] at h <;>
      (obtain ⟨_, rfl⟩ := h; exact List.Sublist.refl _)
  | cons tok rest ih =>
    cases b with
    | true =>
      rw [Spec.scan] at h
      exact (ih _ _ _ _ h).cons _
    | false =>
      rw [Spec.scan] at h
      by_cases hh : tok = Ecli.helpFlag
      · simp [hh] at h
      · simp only [hh, if_false] at h
        cases hm : Spec.matchToken tok rest.head? os with
        | some r =>
          obtain ⟨ds', took⟩ := r
          rw [hm] at h
          exact (ih _ _ _ _ h).cons _
        | none =>
          rw [hm] at h
          simp only [Option.map_eq_some'] at h
          obtain ⟨⟨ds', pos'⟩, hsc, heq⟩ := h
          simp only [Prod.mk.injEq] at heq
          obtain ⟨_, rfl⟩ := heq
          exact (ih _ _ _ _ hsc).cons₂ _

/-- C4 (positional output).  Whenever the call returns, with count `n` and
vector `av`: the scan of specification 4.1 (tokens left to right, a token taken
as the value of the `Argument` option before it skipped, a token that no
not-yet-consumed option matches classified positional) does not meet the help
trigger, `n` is the number of its positional tokens, and the slots `0 .. n-1` of
`av` hold exactly these tokens in their order, which is their relative order in
the original vector (they form a sublist of it); the slots from `n` on are those
of the original vector. -/
theorem parse_positional_output (initial options : List Ecli.Option) (argv : List CStr)
    (intro_msg : CStr) (os : List Ecli.Option) (av : List CStr) (n : Nat)
    (h : Ecli.parse initial options argv.length argv intro_msg = .returned os av n) :
    ∃ ds pos, Spec.scan false options argv = some (ds, pos) ∧ n = pos.length ∧
      av.take n = pos ∧ pos.Sublist argv ∧ av = pos ++ argv.drop n := by
  rw [parse_eq_scan] at h
  cases hsc : Spec.scan false options argv with
  | none => rw [hsc] at h; cases h
  | some r =>
    obtain ⟨ds, pos⟩ := r
    rw [hsc] at h
    simp only [Ecli.Result.returned.injEq] at h
    obtain ⟨_, rfl, rfl⟩ := h
    exact ⟨ds, pos, rfl, rfl, by simp, scan_sublist _ _ _ _ _ hsc, rfl⟩

/-- Witness of C4: the call of `hello.cpp` on `prog --hello Ada extra1 extra2`. -/
theorem parse_positional_output_witness :
    ∃ ds pos, Spec.scan false MyOptions
        (argvOf ["prog", "--hello", "Ada", "extra1", "extra2"]) = some (ds, pos) ∧
      3 = pos.length ∧
      (argvOf ["prog", "extra1", "extra2", "extra1", "extra2"]).take 3 = pos ∧
      pos.Sublist (argvOf ["prog", "--hello", "Ada", "extra1", "extra2"]) ∧
      argvOf ["prog", "extra1", "extra2", "extra1", "extra2"] =
        pos ++ (argvOf ["prog", "--hello", "Ada", "extra1", "extra2"]).drop 3 :=
  parse_positional_output MyOptions MyOptions
    (argvOf ["prog", "--hello", "Ada", "extra1", "extra2"]) helloIntro
    [ { name := "--hello".toList, state := ._processed, value := some "Ada".toList },
      { name := "--hello-world".toList, state := .Switch, value := none },
      { name := "--french".toList, state := .Switch, value := none } ]
    (argvOf ["prog", "extra1", "extra2", "extra1", "extra2"]) 3 (by rfl)

/-- C9 (token 0 is not excluded).  For every option set and every vector
`t :: rest` whose first token `t` is not `--help` and is taken by no option:
the call on `t :: rest` exits through help exactly when the call on `rest`
does, and otherwise returns the same options as the call on `rest`, a count
one greater, and `t` in slot 0 followed by the vector that the call on `rest`
leaves (its positional tokens first).  On the options of `hello.cpp`, the vector
`prog --hello Ada extra1 extra2` gives `hello` the value `Ada`, leaves the
other options absent and returns 3, the positional tokens being `prog`,
`extra1`, `extra2`. -/
theorem parse_first_token_positional (initial options : List Ecli.Option) (t : CStr)
    (rest : List CStr) (intro_msg : CStr) (ht : t ≠ Ecli.helpFlag)
    (hno : ∀ o ∈ options, Ecli.matchesToken o t = false) :
    (Ecli.parse initial options (t :: rest).length (t :: rest) intro_msg =
        match Ecli.parse initial options rest.length rest intro_msg with
        | .returned os av n => .returned os (t :: av) (n + 1)
        | r => r) ∧
      Ecli.parse MyOptions MyOptions 5 (argvOf ["prog", "--hello", "Ada", "extra1", "extra2"])
          helloIntro =
        .returned
          [ { name := "--hello".toList, state := ._processed, value := some "Ada".toList },
            { name := "--hello-world".toList, state := .Switch, value := none },
            { name := "--french".toList, state := .Switch, value := none } ]
          (argvOf ["prog", "extra1", "extra2", "extra1", "extra2"]) 3 := by
  refine ⟨?_, by rfl⟩
  rw [parse_eq_scan, parse_eq_scan, Spec.scan]
  simp only [ht, if_false, matchToken_no_match t _ options hno]
  cases hsc : Spec.scan false options rest with
  | none => simp
  | some r =>
    obtain ⟨ds, pos⟩ := r
    simp

/-- Witness of C9: the program name `prog` before `--french x`. -/
theorem parse_first_token_positional_witness :
    (Ecli.parse MyOptions MyOptions ("prog".toList :: argvOf ["--french", "x"]).length
        ("prog".toList :: argvOf ["--french", "x"]) helloIntro =
        match Ecli.parse MyOptions MyOptions (argvOf ["--french", "x"]).length
          (argvOf ["--french", "x"]) helloIntro with
        | .returned os av n => .returned os ("prog".toList :: av) (n + 1)
        | r => r) ∧
      Ecli.parse MyOptions MyOptions 5 (argvOf ["prog", "--hello", "Ada", "extra1", "extra2"])
          helloIntro =
        .returned
          [ { name := "--hello".toList, state := ._processed, value := some "Ada".toList },
            { name := "--hello-world".toList, state := .Switch, value := none },
            { name := "--french".toList, state := .Switch, value := none } ]
          (argvOf ["prog", "extra1", "extra2", "extra1", "extra2"]) 3 :=
  parse_first_token_positional MyOptions MyOptions "prog".toList (argvOf ["--french", "x"])
    helloIntro (by decide) (by decide)

theorem reaches_processed_has_value (initial : List Ecli.Option) (intro_msg : CStr)
    (argv0 : List CStr) {s t : Ecli.Loop}
    (hr : Ecli.Reaches initial intro_msg argv0.length s t) (hinv : Ecli.Inv argv0 s)
    (hgood : ∀ (j : Nat) (o : Ecli.Option), s.options[j]? = some o →
      o.state = ._processed → o.value ≠ none) :
    ∀ (j : Nat) (o : Ecli.Option), t.options[j]? = some o →
      o.state = ._processed → o.value ≠ none := by
  induction hr with
  | refl s => exact hgood
  | @head s s' t hi hb _ ih =>
    apply ih (body_inv _ _ _ _ _ hinv hi hb).1
    obtain ⟨tok, _, _, hc⟩ := body_cases initial intro_msg argv0 s hinv hi
    rcases hc with ⟨_, _, he⟩ | ⟨_, _, _, he⟩ | ⟨_, j0, d, d', i', hj0, _, hm, ht, _, he⟩
    · rw [he] at hb; cases hb
    · rw [he] at hb; cases hb; exact hgood
    · rw [he] at hb
      cases hb
      intro j o hj ho
      simp only at hj
      by_cases hjj : j0 = j
      · subst hjj
        have hlt : j0 < s.options.length := (List.getElem?_eq_some.1 hj0).1
        rw [List.getElem?_set_self hlt] at hj
        cases hj
        exact (takeToken_spec _ _ _ _ _ _ _ ht).2.2.2 (matchesToken_cases hm).1
      · rw [List.getElem?_set_ne hjj] at hj
        exact hgood j o hj ho

theorem reaches_processed_was_matched (initial : List Ecli.Option) (intro_msg : CStr)
    (argv0 : List CStr) {s t : Ecli.Loop}
    (hr : Ecli.Reaches initial intro_msg argv0.length s t) (hinv : Ecli.Inv argv0 s)
    (j : Nat) (a b : Ecli.Option) (ha : s.options[j]? = some a)
    (hna : a.state ≠ ._processed) (hb : t.options[j]? = some b)
    (hpb : b.state = ._processed) :
    ∃ u, Ecli.Reaches initial intro_msg argv0.length s u ∧ matchedAt argv0.length u = some j := by
  induction hr generalizing a with
  | refl s =>
    rw [ha] at hb
    cases hb
    exact absurd hpb hna
  | @head s s' t hi hbody _ ih =>
    obtain ⟨hinv', _, _⟩ := body_inv _ _ _ _ _ hinv hi hbody
    obtain ⟨tok, _, _, hc⟩ := body_cases initial intro_msg argv0 s hinv hi
    have lift : (∃ u, Ecli.Reaches initial intro_msg argv0.length s' u ∧
        matchedAt argv0.length u = some j) →
        ∃ u, Ecli.Reaches initial intro_msg argv0.length s u ∧
          matchedAt argv0.length u = some j := by
      rintro ⟨u, hu, hmu⟩
      exact ⟨u, Ecli.Reaches.head hi hbody hu, hmu⟩
    rcases hc with ⟨_, _, he⟩ | ⟨_, _, _, he⟩ | ⟨_, j0, d, d', i', hj0, _, _, _, hm0, he⟩
    · rw [he] at hbody; cases hbody
    · rw [he] at hbody
      cases hbody
      exact lift (ih hinv' a ha hna hb)
    · rw [he] at hbody
      cases hbody
      by_cases hjj : j0 = j
      · subst hjj
        exact ⟨s, Ecli.Reaches.refl s, hm0⟩
      · exact lift (ih hinv' a (by simp only; rw [List.getElem?_set_ne hjj]; exact ha) hna hb)

theorem matched_then_processed (initial options : List Ecli.Option) (argv : List CStr)
    (intro_msg : CStr) (u t : Ecli.Loop) (j : Nat)
    (hu : Ecli.Reaches initial intro_msg argv.length (Ecli.start options argv) u)
    (hm : matchedAt argv.length u = some j)
    (ht : Ecli.Reaches initial intro_msg argv.length (Ecli.start options argv) t)
    (hfin : ¬ t.i < argv.length) :
    ∃ o, t.options[j]? = some o ∧ o.state = ._processed := by
  obtain ⟨hinv, _, _⟩ := reaches_inv _ _ _ hu (start_inv options argv)
  obtain ⟨tok, d, d', i', h0, _, _, hj, _, _, htk, hb, _⟩ :=
    matched_outcome initial options argv intro_msg u hu j hm
  have hlt : u.i < argv.length := (List.getElem?_eq_some.1 h0).1
  have hjlt : j < u.options.length := (List.getElem?_eq_some.1 hj).1
  have hp := (takeToken_spec _ _ _ _ _ _ _ htk).2.1
  cases reaches_linear _ _ _ hu ht hfin with
  | refl => exact absurd hlt hfin
  | head _ hb' hr' =>
    rw [hb] at hb'
    cases hb'
    obtain ⟨hinv', _, _⟩ := body_inv _ _ _ _ _ hinv hlt hb
    exact ⟨d', reaches_keeps_processed _ _ _ hr' hinv' j d'
      (by simp [List.getElem?_set_self hjlt]) hp, hp⟩

/-- C5 (unset versus empty).  For every freshly declared option set and every
vector on which the call returns, and for every option `j` of the returned set:
its value is absent (`nullptr`) if and only if no scanned token was taken by
option `j` during the call, whatever description text the option was declared
with.  Hence an option that took a token has a non-null value (possibly the
empty string), and never matched is distinguishable from matched with an empty
value. -/
theorem parse_unset_iff_never_matched (initial options : List Ecli.Option)
    (argv : List CStr) (intro_msg : CStr) (hfresh : Ecli.Fresh options)
    (os : List Ecli.Option) (av : List CStr) (n : Nat)
    (hret : Ecli.parse initial options argv.length argv intro_msg = .returned os av n)
    (j : Nat) (o : Ecli.Option) (hj : os[j]? = some o) :
    o.value = none ↔
      ¬ ∃ s, Ecli.Reaches initial intro_msg argv.length (Ecli.start options argv) s ∧
        matchedAt argv.length s = some j := by
  have hstart := start_inv options argv
  rw [parse_eq_loop] at hret
  rcases loop_total initial intro_msg argv argv.length (Ecli.start options argv)
    hstart (by simp [Ecli.start]) with ⟨_, _, _, _, hl⟩ | ⟨t, hr, hfin, hl⟩
  · rw [hl] at hret
    cases hret
  · rw [hl] at hret
    simp only [Ecli.Result.returned.injEq] at hret
    obtain ⟨rfl, _, _⟩ := hret
    rw [clearUnprocessed_getElem?] at hj
    simp only [Option.map_eq_some'] at hj
    obtain ⟨ot, hot, rfl⟩ := hj
    obtain ⟨_, _, hlen⟩ := reaches_inv _ _ _ hr hstart
    constructor
    · intro hv
      rintro ⟨u, hu, hm⟩
      obtain ⟨o', ho', hp⟩ := matched_then_processed _ _ _ _ u t j hu hm hr hfin
      rw [hot] at ho'
      cases ho'
      have hgood := reaches_processed_has_value _ _ _ hr hstart (by
        intro k a hk ha
        exact absurd ha (hfresh a (List.getElem?_mem hk))) j ot hot hp
      simp only [hp, ne_eq, not_true_eq_false, if_false] at hv
      exact hgood hv
    · intro hnm
      by_cases hp : ot.state = ._processed
      · exfalso
        have hjlt : j < options.length := by
          have := (List.getElem?_eq_some.1 hot).1
          rw [hlen] at this
          exact this
        have ha : (Ecli.start options argv).options[j]? = some options[j] :=
          List.getElem?_eq_getElem hjlt
        exact hnm (reaches_processed_was_matched _ _ _ hr hstart j options[j] ot ha
          (hfresh _ (List.getElem_mem _)) hot hp)
      · simp [hp]

/-- Witness of C5: on `prog --hello-world --french` the option `hello`, declared
with a description text, is never matched and ends absent. -/
theorem parse_unset_iff_never_matched_witness :
    (none : CharPtr) = none ↔
      ¬ ∃ s, Ecli.Reaches MyOptions helloIntro
          (argvOf ["prog", "--hello-world", "--french"]).length
          (Ecli.start MyOptions (argvOf ["prog", "--hello-world", "--french"])) s ∧
        matchedAt (argvOf ["prog", "--hello-world", "--french"]).length s = some 0 :=
  parse_unset_iff_never_matched MyOptions MyOptions
    (argvOf ["prog", "--hello-world", "--french"]) helloIntro
    (by intro o ho; simp only [MyOptions, List.mem_cons, List.mem_singleton, List.not_mem_nil,
          or_false] at ho; rcases ho with rfl | rfl | rfl <;> decide)
    [ { name := "--hello".toList, state := .Argument, value := none },
      { name := "--hello-world".toList, state := ._processed, value := some [] },
      { name := "--french".toList, state := ._processed, value := some [] } ]
    (argvOf ["prog", "--hello-world", "--french"]) 1 (by rfl) 0
    { name := "--hello".toList, state := .Argument, value := none } rfl

/-- C18 (frame on the argument vector).  Whenever the call returns, with count
`n` and vector `av`: the length of the vector is unchanged, `n` does not exceed
it, and every slot at an index `k` with `n ≤ k` (in particular `n ≤ k < argc`)
holds the token it held before the call; only slots below `n` were written. -/
theorem parse_frame_argv (initial options : List Ecli.Option) (argv : List CStr)
    (intro_msg : CStr) (os : List Ecli.Option) (av : List CStr) (n : Nat)
    (h : Ecli.parse initial options argv.length argv intro_msg = .returned os av n) :
    av.length = argv.length ∧ n ≤ argv.length ∧ ∀ k, n ≤ k → av[k]? = argv[k]? := by
  rw [parse_eq_scan] at h
  cases hsc : Spec.scan false options argv with
  | none => rw [hsc] at h; cases h
  | some r =>
    obtain ⟨ds, pos⟩ := r
    rw [hsc] at h
    simp only [Ecli.Result.returned.injEq] at h
    obtain ⟨_, rfl, rfl⟩ := h
    have hle : pos.length ≤ argv.length := (scan_sublist _ _ _ _ _ hsc).length_le
    refine ⟨by simp; omega, hle, ?_⟩
    intro k hk
    rw [List.getElem?_append_right hk, List.getElem?_drop]
    congr 1
    omega

/-- Witness of C18: the call of `hello.cpp` on `prog --hello Ada extra1 extra2`
returns 3 and leaves the slots 3 and 4 as they were. -/
theorem parse_frame_argv_witness :
    (argvOf ["prog", "extra1", "extra2", "extra1", "extra2"]).length =
        (argvOf ["prog", "--hello", "Ada", "extra1", "extra2"]).length ∧
      3 ≤ (argvOf ["prog", "--hello", "Ada", "extra1", "extra2"]).length ∧
      ∀ k, 3 ≤ k → (argvOf ["prog", "extra1", "extra2", "extra1", "extra2"])[k]? =
        (argvOf ["prog", "--hello", "Ada", "extra1", "extra2"])[k]? :=
  parse_frame_argv MyOptions MyOptions
    (argvOf ["prog", "--hello", "Ada", "extra1", "extra2"]) helloIntro
    [ { name := "--hello".toList, state := ._processed, value := some "Ada".toList },
      { name := "--hello-world".toList, state := .Switch, value := none },
      { name := "--french".toList, state := .Switch, value := none } ]
    (argvOf ["prog", "extra1", "extra2", "extra1", "extra2"]) 3 (by rfl)

/-- C15 (the `=` form does not depend on the kind).  Let `s` be a loop state of
the call, let the option that takes the token `argv[s.i]` be `d` (so `d` is not
consumed before: this is the first token matched to `d`), and let the token
have the form `name=v` for the name of `d`.  Then, whether `d` is of kind
`Argument` or `Switch`, the iteration stores exactly `v` in `d` (a `Switch`
given `--flag=v` holds `v`, not the empty string), marks `d` processed and
changes no other option (the inner loop breaks at `d`: the options behind it
are not tried); the scan resumes at the very next token, which is therefore not
consumed; and the call ends in the help exit or returns with `d` holding `v`. -/
theorem parse_eq_form_any_kind (initial options : List Ecli.Option)
    (argv : List CStr) (intro_msg : CStr) (s : Ecli.Loop) (j : Nat) (d : Ecli.Option)
    (v : CStr)
    (hr : Ecli.Reaches initial intro_msg argv.length (Ecli.start options argv) s)
    (hm : matchedAt argv.length s = some j)
    (hj : s.options[j]? = some d)
    (htok : argv[s.i]? = some (d.name ++ '=' :: v)) :
    Ecli.body initial intro_msg argv.length s =
        .next { options := s.options.set j { d with value := some v, state := ._processed },
                argv := s.argv, i := s.i + 1, nb_positional := s.nb_positional } ∧
      Ecli.Reaches initial intro_msg argv.length (Ecli.start options argv)
        { options := s.options.set j { d with value := some v, state := ._processed },
          argv := s.argv, i := s.i + 1, nb_positional := s.nb_positional } ∧
      (Ecli.parse initial options argv.length argv intro_msg =
          .exited (Ecli.help initial intro_msg) ∨
        ∃ os av n, Ecli.parse initial options argv.length argv intro_msg = .returned os av n ∧
          os[j]? = some { name := d.name, state := ._processed, value := some v }) := by
  have hlt : s.i < argv.length := (List.getElem?_eq_some.1 htok).1
  have ht := takeToken_eq_form argv.length s.argv s.i d v
  obtain ⟨hb, hp⟩ := taken_outcome initial options argv intro_msg s hr j hm _ d _ _
    htok hj ht
  exact ⟨hb, reaches_step _ _ _ hr hlt hb, hp⟩

/-- Witness of C15 on the options of `hello.cpp`: the `Switch` option `--french`
given `--french=oui` holds `oui`, and the token `x` behind it is scanned. -/
theorem parse_eq_form_any_kind_witness :
    Ecli.body MyOptions [] (argvOf ["--french=oui", "x"]).length
        (Ecli.start MyOptions (argvOf ["--french=oui", "x"])) =
        .next { options := (Ecli.start MyOptions (argvOf ["--french=oui", "x"])).options.set 2
                  { name := "--french".toList, state := ._processed,
                    value := some "oui".toList },
                argv := argvOf ["--french=oui", "x"], i := 0 + 1, nb_positional := 0 } ∧
      Ecli.Reaches MyOptions [] (argvOf ["--french=oui", "x"]).length
        (Ecli.start MyOptions (argvOf ["--french=oui", "x"]))
        { options := (Ecli.start MyOptions (argvOf ["--french=oui", "x"])).options.set 2
            { name := "--french".toList, state := ._processed, value := some "oui".toList },
          argv := argvOf ["--french=oui", "x"], i := 0 + 1, nb_positional := 0 } ∧
      (Ecli.parse MyOptions MyOptions (argvOf ["--french=oui", "x"]).length
          (argvOf ["--french=oui", "x"]) [] = .exited (Ecli.help MyOptions []) ∨
        ∃ os av n, Ecli.parse MyOptions MyOptions (argvOf ["--french=oui", "x"]).length
            (argvOf ["--french=oui", "x"]) [] = .returned os av n ∧
          os[2]? = some { name := "--french".toList, state := ._processed,
                          value := some "oui".toList }) :=
  parse_eq_form_any_kind MyOptions MyOptions (argvOf ["--french=oui", "x"]) []
    (Ecli.start MyOptions (argvOf ["--french=oui", "x"])) 2
    { name := "--french".toList, state := .Switch, value := some "Greets in French.".toList }
    "oui".toList (Ecli.Reaches.refl _) (by decide) rfl rfl

/-! ## Consumed options -/

theorem parse_returned_final (initial options : List Ecli.Option) (argv : List CStr)
    (intro_msg : CStr) (os : List Ecli.Option) (av : List CStr) (n : Nat)
    (h : Ecli.parse initial options argv.length argv intro_msg = .returned os av n) :
    ∃ t, Ecli.Reaches initial intro_msg argv.length (Ecli.start options argv) t ∧
      ¬ t.i < argv.length ∧ os = Ecli.clearUnprocessed t.options ∧ av = t.argv ∧
      n = t.nb_positional := by
  rw [parse_eq_loop] at h
  rcases loop_total initial intro_msg argv argv.length (Ecli.start options argv)
    (start_inv options argv) (by simp [Ecli.start]) with ⟨_, _, _, _, hl⟩ | ⟨t, hr, hfin, hl⟩
  · rw [hl] at h
    cases h
  · rw [hl] at h
    simp only [Ecli.Result.returned.injEq] at h
    obtain ⟨rfl, rfl, rfl⟩ := h
    exact ⟨t, hr, hfin, rfl, rfl, rfl⟩

/-- A processed option at a loop state of the call: it does not take the token
of that state, it is the same at every later loop state and in the returned
set, and the token of that state, when it is not `--help` and no other option
takes it, is moved to the positional region. -/
theorem processed_outcome (initial options : List Ecli.Option) (argv : List CStr)
    (intro_msg : CStr) (s : Ecli.Loop)
    (hr : Ecli.Reaches initial intro_msg argv.length (Ecli.start options argv) s)
    (j : Nat) (d : Ecli.Option) (hj : s.options[j]? = some d) (hd : d.state = ._processed) :
    matchedAt argv.length s ≠ some j ∧
      (∀ t, Ecli.Reaches initial intro_msg argv.length s t → t.options[j]? = some d) ∧
      (Ecli.parse initial options argv.length argv intro_msg =
          .exited (Ecli.help initial intro_msg) ∨
        ∃ os av n, Ecli.parse initial options argv.length argv intro_msg = .returned os av n ∧
          os[j]? = some d) ∧
      (∀ tok, argv[s.i]? = some tok → tok ≠ Ecli.helpFlag →
        (∀ j' o, j' ≠ j → s.options[j']? = some o → Ecli.matchesToken o tok = false) →
        Ecli.body initial intro_msg argv.length s =
          .next { options := s.options, argv := s.argv.set s.nb_positional tok,
                  i := s.i + 1, nb_positional := s.nb_positional + 1 }) := by
  obtain ⟨hinv, _, _⟩ := reaches_inv _ _ _ hr (start_inv options argv)
  refine ⟨?_, ?_, ?_, ?_⟩
  · intro hm
    obtain ⟨tok, d0, _, _, _, _, _, hj0, _, hmt, _⟩ :=
      matched_outcome initial options argv intro_msg s hr j hm
    rw [hj] at hj0
    cases hj0
    rw [matchesToken_processed d tok hd] at hmt
    cases hmt
  · intro t ht
    exact reaches_keeps_processed _ _ _ ht hinv j d hj hd
  · rw [parse_of_reaches _ _ _ _ hr]
    exact loop_keeps_processed _ _ _ _ _ hinv (Nat.le_refl _) j d hj hd
  · intro tok htok hh hno
    have hlt : s.i < argv.length := (List.getElem?_eq_some.1 htok).1
    have hs : s.argv[s.i]? = some tok := by rw [inv_read hinv s.i (Nat.le_refl _), htok]
    apply body_positional _ _ _ _ _ hs hh
    · intro o ho
      obtain ⟨j', hj'lt, hj'⟩ := List.getElem_of_mem ho
      by_cases hjj : j' = j
      · subst hjj
        have : s.options[j']? = some o := by rw [List.getElem?_eq_getElem hj'lt, hj']
        rw [hj] at this
        cases this
        exact matchesToken_processed _ _ hd
      · exact hno j' o hjj (by rw [List.getElem?_eq_getElem hj'lt, hj'])
    · rw [hinv.1]
      exact Nat.lt_of_le_of_lt hinv.2.1 hlt

/-- The option that a token consumed, at every later loop state of the call. -/
theorem consumed_at_later_state (initial options : List Ecli.Option) (argv : List CStr)
    (intro_msg : CStr) (u s : Ecli.Loop) (j : Nat)
    (hu : Ecli.Reaches initial intro_msg argv.length (Ecli.start options argv) u)
    (hm : matchedAt argv.length u = some j)
    (hs : Ecli.Reaches initial intro_msg argv.length (Ecli.start options argv) s)
    (hlt : u.i < s.i) :
    ∃ d u', d.state = ._processed ∧ Ecli.body initial intro_msg argv.length u = .next u' ∧
      u'.options[j]? = some d ∧ s.options[j]? = some d := by
  obtain ⟨hinv, _, _⟩ := reaches_inv _ _ _ hu (start_inv options argv)
  obtain ⟨hinvs, _, _⟩ := reaches_inv _ _ _ hs (start_inv options argv)
  obtain ⟨tok, d0, d', i', h0, _, _, hj0, _, _, htk, hb, _⟩ :=
    matched_outcome initial options argv intro_msg u hu j hm
  have hui : u.i < argv.length := (List.getElem?_eq_some.1 h0).1
  have hjlt : j < u.options.length := (List.getElem?_eq_some.1 hj0).1
  have hp := (takeToken_spec _ _ _ _ _ _ _ htk).2.1
  have hset : (u.options.set j d')[j]? = some d' := by simp [List.getElem?_set_self hjlt]
  refine ⟨d', _, hp, hb, hset, ?_⟩
  rcases reaches_total _ _ _ hu hs with h | h
  · cases h with
    | refl => omega
    | head _ hb' hr' =>
      rw [hb] at hb'
      cases hb'
      obtain ⟨hinv', _, _⟩ := body_inv _ _ _ _ _ hinv hui hb
      exact reaches_keeps_processed _ _ _ hr' hinv' j d' hset hp
  · have := (reaches_inv _ _ _ h hinvs).2.1
    omega

/-- C14, counterexample.  On the options of `hello.cpp` and the vector
`--french --hello --french`: the option `--french` is consumed by the first
token; the third token is `--french` again, the name alone of that option, and
no other option matches it; yet it is not classified positional: it is taken as
the value of `--hello`, and the call returns the positional count 0. -/
theorem parse_later_name_taken_as_value :
    (argvOf ["--french", "--hello", "--french"])[2]? = some "--french".toList ∧
      (∀ o ∈ MyOptions, o.name ≠ "--french".toList →
        Ecli.matchesToken o "--french".toList = false) ∧
      Ecli.parse MyOptions MyOptions 3 (argvOf ["--french", "--hello", "--french"])
          helloIntro =
        .returned
          [ { name := "--hello".toList, state := ._processed,
              value := some "--french".toList },
            { name := "--hello-world".toList, state := .Switch, value := none },
            { name := "--french".toList, state := ._processed, value := some [] } ]
          (argvOf ["--french", "--hello", "--french"]) 0 := by
  refine ⟨rfl, ?_, by rfl⟩
  intro o ho hne
  simp only [MyOptions, List.mem_cons, List.mem_singleton, List.not_mem_nil, or_false] at ho
  rcases ho with rfl | rfl | rfl
  · decide
  · decide
  · exact absurd rfl hne

/-- C14, as amended (consume-once).  Let a token of the call, scanned at loop
state `u`, be taken by option `j`, and let `s` be a later loop state of the call
(so the token `argv[s.i]` is scanned: it is not taken as the value of the
`Argument` option before it).  Then option `j` is at `s` exactly as the
consuming iteration left it, processed; it does not take the token of `s`,
whatever that token is (its name, `name=value`, or anything else); the call
ends in the help exit or returns with option `j` still as the consuming
iteration left it (first match wins, no overwrite, no accumulation); and the
token of `s`, when it is not `--help` and no other option takes it, is
classified positional: it is written to slot `nb_positional` and counted. -/
theorem parse_consume_once (initial options : List Ecli.Option) (argv : List CStr)
    (intro_msg : CStr) (u s : Ecli.Loop) (j : Nat)
    (hu : Ecli.Reaches initial intro_msg argv.length (Ecli.start options argv) u)
    (hm : matchedAt argv.length u = some j)
    (hs : Ecli.Reaches initial intro_msg argv.length (Ecli.start options argv) s)
    (hlt : u.i < s.i) :
    ∃ d u', d.state = ._processed ∧ Ecli.body initial intro_msg argv.length u = .next u' ∧
      u'.options[j]? = some d ∧ s.options[j]? = some d ∧
      matchedAt argv.length s ≠ some j ∧
      (Ecli.parse initial options argv.length argv intro_msg =
          .exited (Ecli.help initial intro_msg) ∨
        ∃ os av n, Ecli.parse initial options argv.length argv intro_msg = .returned os av n ∧
          os[j]? = some d) ∧
      (∀ tok, argv[s.i]? = some tok → tok ≠ Ecli.helpFlag →
        (∀ j' o, j' ≠ j → s.options[j']? = some o → Ecli.matchesToken o tok = false) →
        Ecli.body initial intro_msg argv.length s =
          .next { options := s.options, argv := s.argv.set s.nb_positional tok,
                  i := s.i + 1, nb_positional := s.nb_positional + 1 }) := by
  obtain ⟨d, u', hp, hb, hu', hsd⟩ :=
    consumed_at_later_state initial options argv intro_msg u s j hu hm hs hlt
  obtain ⟨h1, _, h3, h4⟩ := processed_outcome initial options argv intro_msg s hs j d hsd hp
  exact ⟨d, u', hp, hb, hu', hsd, h1, h3, h4⟩

/-- Witness of C14 as amended: the call of `hello.cpp` on `--french --french`, at
its first and at its second token. -/
theorem parse_consume_once_witness :
    ∃ d u', d.state = ._processed ∧
      Ecli.body MyOptions helloIntro (argvOf ["--french", "--french"]).length
        (Ecli.start MyOptions (argvOf ["--french", "--french"])) = .next u' ∧
      u'.options[2]? = some d ∧ frenchTwiceSecond.options[2]? = some d ∧
      matchedAt (argvOf ["--french", "--french"]).length frenchTwiceSecond ≠ some 2 ∧
      (Ecli.parse MyOptions MyOptions (argvOf ["--french", "--french"]).length
          (argvOf ["--french", "--french"]) helloIntro =
          .exited (Ecli.help MyOptions helloIntro) ∨
        ∃ os av n, Ecli.parse MyOptions MyOptions (argvOf ["--french", "--french"]).length
            (argvOf ["--french", "--french"]) helloIntro = .returned os av n ∧
          os[2]? = some d) ∧
      (∀ tok, (argvOf ["--french", "--french"])[frenchTwiceSecond.i]? = some tok →
        tok ≠ Ecli.helpFlag →
        (∀ j' o, j' ≠ 2 → frenchTwiceSecond.options[j']? = some o →
          Ecli.matchesToken o tok = false) →
        Ecli.body MyOptions helloIntro (argvOf ["--french", "--french"]).length
            frenchTwiceSecond =
          .next { options := frenchTwiceSecond.options,
                  argv := frenchTwiceSecond.argv.set frenchTwiceSecond.nb_positional tok,
                  i := frenchTwiceSecond.i + 1,
                  nb_positional := frenchTwiceSecond.nb_positional + 1 }) :=
  parse_consume_once MyOptions MyOptions (argvOf ["--french", "--french"]) helloIntro
    (Ecli.start MyOptions (argvOf ["--french", "--french"])) frenchTwiceSecond 2
    (Ecli.Reaches.refl _) (by decide)
    (Ecli.Reaches.head (by decide) (by rfl) (Ecli.Reaches.refl _)) (by decide)

/-- C11, counterexample.  On the options of `hello.cpp`, a first call on
`--french` consumes `--french` and returns 0.  In a second call on the same
option set with the vector `--hello --french`, the token `--french` names the
option consumed by the first call, and it is not classified positional: it is
taken as the value of `--hello`, and the second call returns 0. -/
theorem parse_twice_name_taken_as_value :
    Ecli.parse MyOptions MyOptions 1 (argvOf ["--french"]) helloIntro =
        .returned frenchConsumed (argvOf ["--french"]) 0 ∧
      "--french".toList ∈ argvOf ["--hello", "--french"] ∧
      Ecli.parse MyOptions frenchConsumed 2 (argvOf ["--hello", "--french"]) helloIntro =
        .returned
          [ { name := "--hello".toList, state := ._processed,
              value := some "--french".toList },
            { name := "--hello-world".toList, state := .Switch, value := none },
            { name := "--french".toList, state := ._processed, value := some [] } ]
          (argvOf ["--hello", "--french"]) 0 := by
  refine ⟨by rfl, by decide, by rfl⟩

/-- C11, as amended (no idempotence across calls).  Let a first call return the
option set `os1`, and let option `j` have taken a token during that call.  Then
option `j` is processed in `os1`, and in a second call on `os1`, with any
vector: at every loop state of the second call option `j` is as the first call
left it and does not take the token (it is skipped for all tokens); the second
call ends in the help exit or returns with option `j` still holding the value
given by the first call, whether or not the second vector mentions it; and a
scanned token of the second call (one not taken as the value of the `Argument`
option before it), when it is not `--help` and no other option takes it, is
classified positional, so in particular a scanned token naming option `j`.
On the options of `hello.cpp`, parsing `--french` twice returns 0 the first time
and 1 the second time. -/
theorem parse_twice (initial options : List Ecli.Option) (argv1 : List CStr)
    (intro_msg : CStr) (os1 : List Ecli.Option) (av1 : List CStr) (n1 : Nat)
    (h1 : Ecli.parse initial options argv1.length argv1 intro_msg = .returned os1 av1 n1)
    (u : Ecli.Loop) (j : Nat)
    (hu : Ecli.Reaches initial intro_msg argv1.length (Ecli.start options argv1) u)
    (hm : matchedAt argv1.length u = some j) (argv2 : List CStr) :
    (∃ d, os1[j]? = some d ∧ d.state = ._processed ∧
      (∀ s, Ecli.Reaches initial intro_msg argv2.length (Ecli.start os1 argv2) s →
        s.options[j]? = some d ∧ matchedAt argv2.length s ≠ some j ∧
        (∀ tok, argv2[s.i]? = some tok → tok ≠ Ecli.helpFlag →
          (∀ j' o, j' ≠ j → s.options[j']? = some o → Ecli.matchesToken o tok = false) →
          Ecli.body initial intro_msg argv2.length s =
            .next { options := s.options, argv := s.argv.set s.nb_positional tok,
                    i := s.i + 1, nb_positional := s.nb_positional + 1 })) ∧
      (Ecli.parse initial os1 argv2.length argv2 intro_msg =
          .exited (Ecli.help initial intro_msg) ∨
        ∃ os2 av2 n2, Ecli.parse initial os1 argv2.length argv2 intro_msg =
            .returned os2 av2 n2 ∧ os2[j]? = some d)) ∧
      Ecli.parse MyOptions MyOptions 1 (argvOf ["--french"]) helloIntro =
        .returned frenchConsumed (argvOf ["--french"]) 0 ∧
      Ecli.parse MyOptions frenchConsumed 1 (argvOf ["--french"]) helloIntro =
        .returned frenchConsumed (argvOf ["--french"]) 1 := by
  refine ⟨?_, by rfl, by rfl⟩
  obtain ⟨t, ht, hfin, rfl, _, _⟩ := parse_returned_final _ _ _ _ _ _ _ h1
  obtain ⟨o, ho, hp⟩ := matched_then_processed _ _ _ _ u t j hu hm ht hfin
  have hos : (Ecli.clearUnprocessed t.options)[j]? = some o := by
    rw [clearUnprocessed_getElem?, ho]
    simp [hp]
  refine ⟨o, hos, hp, ?_, ?_⟩
  · intro s hs
    have hso : s.options[j]? = some o :=
      reaches_keeps_processed _ _ _ hs (start_inv _ argv2) j o hos hp
    obtain ⟨h2, _, _, h4⟩ := processed_outcome initial _ argv2 intro_msg s hs j o hso hp
    exact ⟨hso, h2, h4⟩
  · exact (processed_outcome initial _ argv2 intro_msg _ (Ecli.Reaches.refl _) j o hos hp).2.2.1

/-- Witness of C11 as amended: the options of `hello.cpp`, a first call on
`--french` and a second call on `--french`. -/
theorem parse_twice_witness :
    (∃ d, frenchConsumed[2]? = some d ∧ d.state = ._processed ∧
      (∀ s, Ecli.Reaches MyOptions helloIntro (argvOf ["--french"]).length
          (Ecli.start frenchConsumed (argvOf ["--french"])) s →
        s.options[2]? = some d ∧ matchedAt (argvOf ["--french"]).length s ≠ some 2 ∧
        (∀ tok, (argvOf ["--french"])[s.i]? = some tok → tok ≠ Ecli.helpFlag →
          (∀ j' o, j' ≠ 2 → s.options[j']? = some o → Ecli.matchesToken o tok = false) →
          Ecli.body MyOptions helloIntro (argvOf ["--french"]).length s =
            .next { options := s.options, argv := s.argv.set s.nb_positional tok,
                    i := s.i + 1, nb_positional := s.nb_positional + 1 })) ∧
      (Ecli.parse MyOptions frenchConsumed (argvOf ["--french"]).length
          (argvOf ["--french"]) helloIntro = .exited (Ecli.help MyOptions helloIntro) ∨
        ∃ os2 av2 n2, Ecli.parse MyOptions frenchConsumed (argvOf ["--french"]).length
            (argvOf ["--french"]) helloIntro = .returned os2 av2 n2 ∧ os2[2]? = some d)) ∧
      Ecli.parse MyOptions MyOptions 1 (argvOf ["--french"]) helloIntro =
        .returned frenchConsumed (argvOf ["--french"]) 0 ∧
      Ecli.parse MyOptions frenchConsumed 1 (argvOf ["--french"]) helloIntro =
        .returned frenchConsumed (argvOf ["--french"]) 1 :=
  parse_twice MyOptions MyOptions (argvOf ["--french"]) helloIntro frenchConsumed
    (argvOf ["--french"]) 0 (by rfl) (Ecli.start MyOptions (argvOf ["--french"])) 2
    (Ecli.Reaches.refl _) (by decide) (argvOf ["--french"])

/-! ## Index safety -/

theorem byteAt_of_strncmp (name tok : CStr) (h : strncmp name tok (strlen name) = 0) :
    CStr.byteAt tok (strlen name) ≠ .outOfBounds := by
  obtain ⟨r, rfl⟩ := (strncmp_eq_zero _ _).1 h
  have hb : CStr.byteAt (name ++ r) (strlen name) = CStr.byteAt r 0 := byteAt_append _ _
  rw [hb]
  cases r <;> simp [CStr.byteAt]

/-- C17 (index safety).  At every loop state `s` of the call (`argc` being the
length of the vector): the write index does not exceed the read index,
`nb_positional ≤ i ≤ argc`, the vector keeps its length, and every slot from
`nb_positional` on, so every slot not yet scanned, still holds its original
token.  When `i < argc`, the iteration does not fault (no read or write of
`argv` and no read of a token is out of bounds): it exits through help or goes
to a next loop state, and then either leaves `argv` as it is or writes the
scanned token to the slot `nb_positional`, with `nb_positional ≤ i < argc`,
and either steps to `i + 1` or, having read the look-ahead `argv[i + 1]`, to
`i + 2`, which happens only when `i + 1 < argc`.  The byte of a token at
offset `strlen name` is read only after `strncmp` found the token to start with
the name, and is then a character of the token or its terminator.  The call as
a whole never faults. -/
theorem parse_index_safety (initial options : List Ecli.Option) (argv : List CStr)
    (intro_msg : CStr) (s : Ecli.Loop)
    (hr : Ecli.Reaches initial intro_msg argv.length (Ecli.start options argv) s) :
    (s.nb_positional ≤ s.i ∧ s.i ≤ argv.length ∧ s.argv.length = argv.length ∧
        ∀ k, s.nb_positional ≤ k → s.argv[k]? = argv[k]?) ∧
      (s.i < argv.length →
        Ecli.body initial intro_msg argv.length s = .exited (Ecli.help initial intro_msg) ∨
        ∃ s' tok, Ecli.body initial intro_msg argv.length s = .next s' ∧
          argv[s.i]? = some tok ∧
          ((s'.argv = s.argv ∧ s'.nb_positional = s.nb_positional) ∨
            (s'.argv = s.argv.set s.nb_positional tok ∧
              s'.nb_positional = s.nb_positional + 1 ∧
              s.nb_positional ≤ s.i ∧ s.i < s.argv.length ∧ s'.i = s.i + 1)) ∧
          (s'.i = s.i + 1 ∨ (s'.i = s.i + 2 ∧ s.i + 1 < argv.length))) ∧
      (∀ name tok : CStr, strncmp name tok (strlen name) = 0 →
        CStr.byteAt tok (strlen name) ≠ .outOfBounds) ∧
      Ecli.parse initial options argv.length argv intro_msg ≠ .fault := by
  obtain ⟨hinv, _, _⟩ := reaches_inv _ _ _ hr (start_inv options argv)
  refine ⟨⟨hinv.2.1, hinv.2.2.1, hinv.1, hinv.2.2.2⟩, ?_, byteAt_of_strncmp, ?_⟩
  · intro hi
    obtain ⟨tok, h0, hs, hc⟩ := body_cases initial intro_msg argv s hinv hi
    rcases hc with ⟨_, _, he⟩ | ⟨_, _, _, he⟩ | ⟨_, j, d, d', i', _, _, _, ht, _, he⟩
    · exact Or.inl he
    · refine Or.inr ⟨_, tok, he, h0, Or.inr ⟨rfl, rfl, hinv.2.1, ?_, rfl⟩, Or.inl rfl⟩
      rw [hinv.1]
      exact hi
    · refine Or.inr ⟨_, tok, he, h0, Or.inl ⟨rfl, rfl⟩, ?_⟩
      obtain ⟨_, _, hi', _⟩ := takeToken_spec _ _ _ _ _ _ _ ht
      rcases hi' with rfl | ⟨rfl, _, h3⟩
      · exact Or.inl rfl
      · rw [hinv.1] at h3
        exact Or.inr ⟨rfl, h3⟩
  · rcases parse_exits_or_returns initial options argv intro_msg with h | ⟨_, _, _, h⟩ <;>
      rw [h] <;> simp

/-- Witness of C17: the second loop state of the call of `hello.cpp` on
`--french --french`. -/
theorem parse_index_safety_witness :
    (frenchTwiceSecond.nb_positional ≤ frenchTwiceSecond.i ∧
        frenchTwiceSecond.i ≤ (argvOf ["--french", "--french"]).length ∧
        frenchTwiceSecond.argv.length = (argvOf ["--french", "--french"]).length ∧
        ∀ k, frenchTwiceSecond.nb_positional ≤ k →
          frenchTwiceSecond.argv[k]? = (argvOf ["--french", "--french"])[k]?) ∧
      (frenchTwiceSecond.i < (argvOf ["--french", "--french"]).length →
        Ecli.body MyOptions helloIntro (argvOf ["--french", "--french"]).length
            frenchTwiceSecond = .exited (Ecli.help MyOptions helloIntro) ∨
        ∃ s' tok, Ecli.body MyOptions helloIntro (argvOf ["--french", "--french"]).length
            frenchTwiceSecond = .next s' ∧
          (argvOf ["--french", "--french"])[frenchTwiceSecond.i]? = some tok ∧
          ((s'.argv = frenchTwiceSecond.argv ∧
              s'.nb_positional = frenchTwiceSecond.nb_positional) ∨
            (s'.argv = frenchTwiceSecond.argv.set frenchTwiceSecond.nb_positional tok ∧
              s'.nb_positional = frenchTwiceSecond.nb_positional + 1 ∧
              frenchTwiceSecond.nb_positional ≤ frenchTwiceSecond.i ∧
              frenchTwiceSecond.i < frenchTwiceSecond.argv.length ∧
              s'.i = frenchTwiceSecond.i + 1)) ∧
          (s'.i = frenchTwiceSecond.i + 1 ∨
            (s'.i = frenchTwiceSecond.i + 2 ∧
              frenchTwiceSecond.i + 1 < (argvOf ["--french", "--french"]).length))) ∧
      (∀ name tok : CStr, strncmp name tok (strlen name) = 0 →
        CStr.byteAt tok (strlen name) ≠ .outOfBounds) ∧
      Ecli.parse MyOptions MyOptions (argvOf ["--french", "--french"]).length
        (argvOf ["--french", "--french"]) helloIntro ≠ .fault :=
  parse_index_safety MyOptions MyOptions (argvOf ["--french", "--french"]) helloIntro
    frenchTwiceSecond (Ecli.Reaches.head (by decide) (by rfl) (Ecli.Reaches.refl _))

/-! ## Help cuts the scan -/

theorem getElem?_of_take_eq {α : Type} {l1 l2 : List α} {n m : Nat}
    (h : l1.take n = l2.take n) (hm : m < n) : l1[m]? = l2[m]? := by
  rw [← List.getElem?_take_of_lt hm, h, List.getElem?_take_of_lt hm]

theorem takeToken_congr (argc1 argc2 : Nat) (argv1 argv2 : List CStr) (tok : CStr) (i : Nat)
    (d : Ecli.Option) (hc : i + 1 = argc1 ↔ i + 1 = argc2)
    (hv : argv1[i + 1]? = argv2[i + 1]?) :
    takeToken argc1 argv1 tok i d = takeToken argc2 argv2 tok i d := by
  unfold takeToken
  by_cases h1 : i + 1 = argc1
  · have h2 : i + 1 = argc2 := hc.1 h1
    simp only [if_pos h1, if_pos h2]
  · have h2 : ¬ i + 1 = argc2 := fun h => h1 (hc.2 h)
    simp only [if_neg h1, if_neg h2, hv]

theorem exits_of_help_state (initial options : List Ecli.Option) (argv : List CStr)
    (intro_msg : CStr) (s : Ecli.Loop)
    (hr : Ecli.Reaches initial intro_msg argv.length (Ecli.start options argv) s)
    (hh : argv[s.i]? = some Ecli.helpFlag) :
    Ecli.parse initial options argv.length argv intro_msg =
      .exited (Ecli.help initial intro_msg) := by
  obtain ⟨hinv, _, _⟩ := reaches_inv _ _ _ hr (start_inv options argv)
  have hlt : s.i < argv.length := (List.getElem?_eq_some.1 hh).1
  obtain ⟨k, hk⟩ : ∃ k, argv.length - s.i = k + 1 := ⟨argv.length - s.i - 1, by omega⟩
  rw [parse_of_reaches _ _ _ _ hr, hk, loop_succ _ _ _ _ _ hlt,
    body_help _ _ _ _ (by rw [inv_read hinv s.i (Nat.le_refl _), hh])]

/-- Two calls on vectors that agree on the slots `0 .. k` go through the same loop
states up to index `k`: same options, same indices, same slots `0 .. k`. -/
theorem reaches_agree (initial : List Ecli.Option) (intro_msg : CStr)
    (argv1 argv2 : List CStr) (k : Nat) (hk1 : k < argv1.length) (hk2 : k < argv2.length)
    {s1 t1 : Ecli.Loop} (hr : Ecli.Reaches initial intro_msg argv1.length s1 t1)
    (hle : t1.i ≤ k) (s2 : Ecli.Loop) (hinv1 : Ecli.Inv argv1 s1) (hinv2 : Ecli.Inv argv2 s2)
    (ho : s2.options = s1.options) (hi : s2.i = s1.i)
    (hnp : s2.nb_positional = s1.nb_positional)
    (hargv : s2.argv.take (k + 1) = s1.argv.take (k + 1)) :
    ∃ t2, Ecli.Reaches initial intro_msg argv2.length s2 t2 ∧ t2.options = t1.options ∧
      t2.i = t1.i ∧ t2.nb_positional = t1.nb_positional ∧
      t2.argv.take (k + 1) = t1.argv.take (k + 1) := by
  induction hr generalizing s2 with
  | refl s => exact ⟨s2, Ecli.Reaches.refl s2, ho, hi, hnp, hargv⟩
  | @head s1 s1' t1 hlt hb hr' ih =>
    obtain ⟨hinv1', hinc, _⟩ := body_inv _ _ _ _ _ hinv1 hlt hb
    have hmono := (reaches_inv _ _ _ hr' hinv1').2.1
    have hik : s1.i < k := by omega
    have hlt2 : s2.i < argv2.length := by omega
    obtain ⟨tok, _, hs, hc⟩ := body_cases initial intro_msg argv1 s1 hinv1 hlt
    have hs2 : s2.argv[s2.i]? = some tok := by
      rw [hi, getElem?_of_take_eq hargv (by omega), hs]
    have hstep : ∀ s2', Ecli.body initial intro_msg argv2.length s2 = .next s2' →
        s2'.options = s1'.options → s2'.i = s1'.i → s2'.nb_positional = s1'.nb_positional →
        s2'.argv.take (k + 1) = s1'.argv.take (k + 1) →
        ∃ t2, Ecli.Reaches initial intro_msg argv2.length s2 t2 ∧ t2.options = t1.options ∧
          t2.i = t1.i ∧ t2.nb_positional = t1.nb_positional ∧
          t2.argv.take (k + 1) = t1.argv.take (k + 1) := by
      intro s2' hb2 h1 h2 h3 h4
      obtain ⟨hinv2', _, _⟩ := body_inv _ _ _ _ _ hinv2 hlt2 hb2
      obtain ⟨t2, hr2, hrest⟩ := ih hle s2' hinv1' hinv2' h1 h2 h3 h4
      exact ⟨t2, Ecli.Reaches.head hlt2 hb2 hr2, hrest⟩
    rcases hc with ⟨_, _, he⟩ | ⟨hh, hno, _, he⟩ | ⟨hh, j, d, d', i', hj, hfirst, hm, ht, _, he⟩
    · rw [he] at hb; cases hb
    · rw [he] at hb
      cases hb
      have hnp2 : s2.nb_positional < s2.argv.length := by
        rw [hinv2.1]
        have := hinv2.2.1
        omega
      have hb2 := body_positional initial intro_msg argv2.length s2 tok hs2 hh
        (by rw [ho]; exact hno) hnp2
      refine hstep _ hb2 ho (by simp [hi]) (by simp [hnp]) ?_
      simp only
      rw [hnp, List.set_take, List.set_take, hargv]
    · rw [he] at hb
      cases hb
      have ht2 : takeToken argv2.length s2.argv tok s2.i d = some (d', i') := by
        rw [hi, ← ht]
        apply takeToken_congr
        · constructor <;> intro h <;> omega
        · exact getElem?_of_take_eq hargv (by omega)
      have hb2 := body_take initial intro_msg argv2.length s2 tok j d d' i' hs2 hh
        (by rw [ho]; exact hj) (by rw [ho]; exact hfirst) hm ht2
      exact hstep _ hb2 (by simp [ho]) rfl hnp hargv

/-- C13 (help cuts the scan).  Let a call on `argv1` stop on a scanned `--help`
token: a loop state `s1` of the call has `argv1[s1.i] = "--help"`.  Then for
every vector `argv2` that agrees with `argv1` on the slots `0 .. s1.i`, the call
on `argv2` stops at the same point: it reaches a loop state with the same index,
the same options (the same ones consumed, with the same values), the same
positional count and the same slots `0 .. s1.i`, whose token is `--help`; both
calls exit, and with the same text, the help of the default-constructed option
set, which depends neither on the tokens nor on the options as parsed so far.
So the tokens behind the `--help` token have no influence: no option is
consumed or modified on account of them. -/
theorem parse_help_cuts_scan (initial options : List Ecli.Option)
    (argv1 argv2 : List CStr) (intro_msg : CStr) (s1 : Ecli.Loop)
    (hr : Ecli.Reaches initial intro_msg argv1.length (Ecli.start options argv1) s1)
    (hh : argv1[s1.i]? = some Ecli.helpFlag)
    (hagree : argv2.take (s1.i + 1) = argv1.take (s1.i + 1)) :
    ∃ s2, Ecli.Reaches initial intro_msg argv2.length (Ecli.start options argv2) s2 ∧
      s2.i = s1.i ∧ s2.options = s1.options ∧ s2.nb_positional = s1.nb_positional ∧
      s2.argv.take (s1.i + 1) = s1.argv.take (s1.i + 1) ∧
      argv2[s2.i]? = some Ecli.helpFlag ∧
      Ecli.parse initial options argv1.length argv1 intro_msg =
        .exited (Ecli.help initial intro_msg) ∧
      Ecli.parse initial options argv2.length argv2 intro_msg =
        .exited (Ecli.help initial intro_msg) := by
  have hk1 : s1.i < argv1.length := (List.getElem?_eq_some.1 hh).1
  have hk2 : s1.i < argv2.length := by
    have := congrArg List.length hagree
    simp only [List.length_take] at this
    omega
  obtain ⟨s2, hr2, ho, hi, hnp, hargv⟩ :=
    reaches_agree initial intro_msg argv1 argv2 s1.i hk1 hk2 hr (Nat.le_refl _)
      (Ecli.start options argv2) (start_inv options argv1) (start_inv options argv2)
      rfl rfl rfl hagree
  have hh2 : argv2[s2.i]? = some Ecli.helpFlag := by
    rw [hi, getElem?_of_take_eq hagree (Nat.lt_succ_self _), hh]
  exact ⟨s2, hr2, hi, ho, hnp, hargv, hh2,
    exits_of_help_state _ _ _ _ _ hr hh, exits_of_help_state _ _ _ _ _ hr2 hh2⟩

/-- Witness of C13 on the options of `hello.cpp`: the vectors `--french --help x`
and `--french --help --hello y` agree up to the `--help` token at index 1. -/
theorem parse_help_cuts_scan_witness :
    ∃ s2, Ecli.Reaches MyOptions helloIntro (argvOf ["--french", "--help", "--hello", "y"]).length
        (Ecli.start MyOptions (argvOf ["--french", "--help", "--hello", "y"])) s2 ∧
      s2.i = ({ options := frenchTwiceSecond.options,
                argv := argvOf ["--french", "--help", "x"], i := 1,
                nb_positional := 0 } : Ecli.Loop).i ∧
      s2.options = frenchTwiceSecond.options ∧
      s2.nb_positional = 0 ∧
      s2.argv.take (1 + 1) = (argvOf ["--french", "--help", "x"]).take (1 + 1) ∧
      (argvOf ["--french", "--help", "--hello", "y"])[s2.i]? = some Ecli.helpFlag ∧
      Ecli.parse MyOptions MyOptions (argvOf ["--french", "--help", "x"]).length
          (argvOf ["--french", "--help", "x"]) helloIntro =
        .exited (Ecli.help MyOptions helloIntro) ∧
      Ecli.parse MyOptions MyOptions (argvOf ["--french", "--help", "--hello", "y"]).length
          (argvOf ["--french", "--help", "--hello", "y"]) helloIntro =
        .exited (Ecli.help MyOptions helloIntro) :=
  parse_help_cuts_scan MyOptions MyOptions (argvOf ["--french", "--help", "x"])
    (argvOf ["--french", "--help", "--hello", "y"]) helloIntro
    { options := frenchTwiceSecond.options, argv := argvOf ["--french", "--help", "x"],
      i := 1, nb_positional := 0 }
    (Ecli.Reaches.head (by decide) (by rfl) (Ecli.Reaches.refl _)) (by rfl) (by rfl)

/-! ## The help text -/

theorem helpNameSize_eq (ds : List Ecli.Option) (n : Nat) :
    Ecli.helpNameSize ds (n : Int) = ((max n (Spec.helpWidth ds) : Nat) : Int) := by
  induction ds generalizing n with
  | nil => simp [Ecli.helpNameSize, Spec.helpWidth]
  | cons d ds ih =>
    have hw : Spec.helpWidth (d :: ds) = max (Spec.helpNameWidth d) (Spec.helpWidth ds) := by
      simp [Spec.helpWidth]
    have hsize : (if d.state = .Argument then ((strlen d.name : Nat) : Int) + 4
        else ((strlen d.name : Nat) : Int)) = ((Spec.helpNameWidth d : Nat) : Int) := by
      unfold Spec.helpNameWidth strlen
      split <;> simp
    rw [Ecli.helpNameSize]
    simp only [hsize]
    have hmax : (if (n : Int) < ((Spec.helpNameWidth d : Nat) : Int)
        then ((Spec.helpNameWidth d : Nat) : Int) else (n : Int)) =
        ((max n (Spec.helpNameWidth d) : Nat) : Int) := by
      split <;> omega
    rw [hmax, ih, hw]
    congr 1
    omega

theorem helpNameWidth_le (ds : List Ecli.Option) (d : Ecli.Option) (h : d ∈ ds) :
    Spec.helpNameWidth d ≤ Spec.helpWidth ds := by
  induction ds with
  | nil => simp at h
  | cons x xs ih =>
    have hw : Spec.helpWidth (x :: xs) = max (Spec.helpNameWidth x) (Spec.helpWidth xs) := by
      simp [Spec.helpWidth]
    rw [hw]
    rcases List.mem_cons.1 h with rfl | h'
    · exact Nat.le_max_left _ _
    · exact Nat.le_trans (ih h') (Nat.le_max_right _ _)

theorem helpLine_eq (width : Nat) (d : Ecli.Option) (h : Spec.helpNameWidth d ≤ width) :
    Ecli.helpLine (width : Int) d = Spec.helpLine width d := by
  have hv : (match d.value with
      | none => ([] : CStr)
      | some v => v) = d.value.getD [] := by
    cases d.value <;> rfl
  unfold Ecli.helpLine Spec.helpLine Spec.helpField printfLeft
  unfold Spec.helpNameWidth at h
  simp only [hv]
  by_cases ha : d.state = .Argument
  · simp only [ha, if_true] at h ⊢
    have hn : ((width : Int) - ((strlen d.name : Nat) : Int) - 1).natAbs - "...".toList.length =
        width - (d.name ++ " ...".toList).length := by
      simp only [strlen, List.length_append]
      have h3 : "...".toList.length = 3 := rfl
      have h4 : " ...".toList.length = 4 := rfl
      rw [h3, h4]
      omega
    rw [hn]
    have hs : " ...".toList = ' ' :: "...".toList := rfl
    rw [hs]
    simp only [List.append_assoc, List.cons_append, List.singleton_append]
  · simp only [ha, if_false] at h ⊢
    simp

/-- C12 (column alignment of the help).  Let `W` be the largest, over the
declared options, of the length of the name plus 4 for an `Argument` option and
of the length of the name for another one.  The text written by `Ecli::help` is
the introduction, two newlines, one line per declared option and a final
newline; every option line is a tab, a name field, two spaces, a tab, the
declared description (empty when none was declared) and a newline; the name
field is the name (followed by ` ...` for an `Argument` option) right-padded
with spaces, and it has exactly `W` characters for every declared option, so
all descriptions start at the same column.  For the options of `hello.cpp` the
width is 13 and the help text is the one displayed. -/
theorem help_column_alignment (initial : List Ecli.Option) (intro_msg : CStr) :
    Ecli.help initial intro_msg =
        intro_msg ++ "\n\n".toList ++
          (initial.map (Spec.helpLine (Spec.helpWidth initial))).flatten ++ ['\n'] ∧
      (∀ d ∈ initial, (Spec.helpField (Spec.helpWidth initial) d).length =
        Spec.helpWidth initial) ∧
      Spec.helpWidth MyOptions = 13 ∧
      Ecli.help MyOptions helloIntro =
        ("Small program to output some greetings.\n\n" ++
          "\t--hello ...    \tGreets the given name.\n" ++
          "\t--hello-world  \t\n" ++
          "\t--french       \tGreets in French.\n\n").toList := by
  refine ⟨?_, ?_, by decide, by rfl⟩
  · unfold Ecli.help
    have h0 := helpNameSize_eq initial 0
    simp only [Nat.cast_zero, Nat.zero_max] at h0
    simp only [h0]
    congr 3
    apply List.map_congr_left
    intro d hd
    exact helpLine_eq _ d (helpNameWidth_le initial d hd)
  · intro d hd
    have hle := helpNameWidth_le initial d hd
    unfold Spec.helpNameWidth at hle
    unfold Spec.helpField
    by_cases ha : d.state = .Argument
    · simp only [ha, if_true] at hle ⊢
      have h4 : " ...".toList.length = 4 := rfl
      simp only [List.length_append, List.length_replicate, h4]
      omega
    · simp only [ha, if_false] at hle ⊢
      simp only [List.length_append, List.length_replicate]
      omega

/-! ## Independence of the declaration order -/

theorem matchesToken_iff (d : Ecli.Option) (tok : CStr) :
    Ecli.matchesToken d tok = true ↔
      d.state ≠ ._processed ∧ (tok = d.name ∨ (d.name ++ ['=']) <+: tok) := by
  constructor
  · intro h
    obtain ⟨hp, ⟨v, rfl⟩ | rfl⟩ := matchesToken_cases h
    · exact ⟨hp, Or.inr ⟨v, by simp⟩⟩
    · exact ⟨hp, Or.inl rfl⟩
  · rintro ⟨hp, rfl | ⟨v, rfl⟩⟩
    · exact matchesToken_name d hp
    · have := matchesToken_eq_form d v hp
      simpa using this

theorem matches_same_name (d1 d2 : Ecli.Option) (tok : CStr)
    (h1 : '=' ∉ d1.name) (h2 : '=' ∉ d2.name)
    (hm1 : Ecli.matchesToken d1 tok = true) (hm2 : Ecli.matchesToken d2 tok = true) :
    d1.name = d2.name := by
  obtain ⟨_, ⟨v1, e1⟩ | e1⟩ := matchesToken_cases hm1 <;>
    obtain ⟨_, ⟨v2, e2⟩ | e2⟩ := matchesToken_cases hm2
  · rw [e1] at e2
    rcases List.append_eq_append_iff.1 e2 with ⟨a, ha, hb⟩ | ⟨c, hc, hd⟩
    · cases a with
      | nil => simpa using ha.symm
      | cons x a =>
        simp only [List.cons_append, List.cons.injEq] at hb
        exact absurd (by rw [ha, ← hb.1]; simp) h2
    · cases c with
      | nil => simpa using hc
      | cons x c =>
        simp only [List.cons_append, List.cons.injEq] at hd
        exact absurd (by rw [hc, ← hd.1]; simp) h1
  · rw [e1] at e2
    exact absurd (by rw [← e2]; simp) h2
  · rw [e1] at e2
    exact absurd (by rw [e2]; simp) h1
  · rw [← e1, e2]

theorem eq_of_same_name (l : List Ecli.Option) (hn : (l.map (·.name)).Nodup)
    (d1 d2 : Ecli.Option) (h1 : d1 ∈ l) (h2 : d2 ∈ l) (h : d1.name = d2.name) : d1 = d2 :=
  List.inj_on_of_nodup_map hn h1 h2 h

theorem perm_set (l l' : List Ecli.Option) (j j' : Nat) (d d' : Ecli.Option)
    (hp : l.Perm l') (hj : l[j]? = some d) (hj' : l'[j']? = some d) :
    (l.set j d').Perm (l'.set j' d') := by
  rw [set_eq_take_append l j d d' hj, set_eq_take_append l' j' d d' hj']
  have h1 := (split_at_index l j d hj).1
  have h2 := (split_at_index l' j' d hj').1
  rw [h1, h2] at hp
  have h3 : (d :: (l.take j ++ l.drop (j + 1))).Perm (d :: (l'.take j' ++ l'.drop (j' + 1))) :=
    List.perm_middle.symm.trans (hp.trans List.perm_middle)
  exact List.perm_middle.trans ((List.Perm.cons d' h3.cons_inv).trans List.perm_middle.symm)

theorem unambiguous_of_names (l l' : List Ecli.Option)
    (h : (l'.map (·.name)).Perm (l.map (·.name))) (hu : Ecli.Unambiguous l) :
    Ecli.Unambiguous l' := by
  refine ⟨h.nodup_iff.2 hu.1, ?_⟩
  intro o ho
  have hmem : o.name ∈ l.map (·.name) := h.mem_iff.1 (List.mem_map_of_mem _ ho)
  obtain ⟨o', ho', hn⟩ := List.mem_map.1 hmem
  rw [← hn]
  exact hu.2 o' ho'

/-- One iteration on two loop states that differ only in the order of their
options: both exit through help, or both go on, to loop states that again
differ only in the order of their options. -/
theorem body_perm (initial initial' : List Ecli.Option) (intro_msg : CStr)
    (argv0 : List CStr) (s s' : Ecli.Loop) (hinv : Ecli.Inv argv0 s)
    (hi : s.i < argv0.length) (hu : Ecli.Unambiguous s.options)
    (hp : s.options.Perm s'.options) (hargv : s'.argv = s.argv) (hsi : s'.i = s.i)
    (hnp : s'.nb_positional = s.nb_positional) :
    (Ecli.body initial intro_msg argv0.length s = .exited (Ecli.help initial intro_msg) ∧
      Ecli.body initial' intro_msg argv0.length s' =
        .exited (Ecli.help initial' intro_msg)) ∨
    ∃ t t', Ecli.body initial intro_msg argv0.length s = .next t ∧
      Ecli.body initial' intro_msg argv0.length s' = .next t' ∧
      t.options.Perm t'.options ∧ t'.argv = t.argv ∧ t'.i = t.i ∧
      t'.nb_positional = t.nb_positional := by
  have hinv' : Ecli.Inv argv0 s' := by
    unfold Ecli.Inv
    rw [hargv, hsi, hnp]
    exact hinv
  have hi' : s'.i < argv0.length := by rw [hsi]; exact hi
  obtain ⟨tok, h0, _, hc⟩ := body_cases initial intro_msg argv0 s hinv hi
  obtain ⟨tok', h0', hs', hc'⟩ := body_cases initial' intro_msg argv0 s' hinv' hi'
  rw [hsi, h0] at h0'
  cases h0'
  rcases hc with ⟨hh, _, he⟩ | ⟨hh, hno, _, he⟩ | ⟨hh, j, d, d', i', hj, _, hm, ht, _, he⟩
  · exact Or.inl ⟨he, body_help _ _ _ _ (by rw [hs', hh])⟩
  · right
    have hno' : ∀ o ∈ s'.options, Ecli.matchesToken o tok = false :=
      fun o ho => hno o (hp.mem_iff.2 ho)
    have hnpl : s'.nb_positional < s'.argv.length := by
      rw [hinv'.1]
      exact Nat.lt_of_le_of_lt hinv'.2.1 hi'
    refine ⟨_, _, he, body_positional _ _ _ _ _ hs' hh hno' hnpl, hp, ?_, ?_, ?_⟩
    · simp only [hargv, hnp]
    · simp only [hsi]
    · simp only [hnp]
  · right
    have hd : d ∈ s.options := List.getElem?_mem hj
    have hd' : d ∈ s'.options := hp.mem_iff.1 hd
    rcases hc' with ⟨hh', _, _⟩ | ⟨_, hno', _, _⟩ |
      ⟨_, j2, d2, d2', i2', hj2, _, hm2, ht2, _, he2⟩
    · exact absurd hh' hh
    · rw [hno' d hd'] at hm
      cases hm
    · have hd2 : d2 ∈ s.options := hp.mem_iff.2 (List.getElem?_mem hj2)
      have hname := matches_same_name d2 d tok (hu.2 d2 hd2) (hu.2 d hd) hm2 hm
      have heq : d2 = d := eq_of_same_name s.options hu.1 d2 d hd2 hd hname
      subst heq
      rw [hargv, hsi, ht] at ht2
      cases ht2
      exact ⟨_, _, he, he2, perm_set _ _ _ _ _ _ hp hj hj2, hargv, rfl, hnp⟩

/-- The loop on two loop states that differ only in the order of their options:
both calls exit through help, or both return, with option sets that differ only
in their order, the same vector and the same count. -/
theorem loop_perm (initial initial' : List Ecli.Option) (intro_msg : CStr)
    (argv0 : List CStr) (fuel : Nat) (s s' : Ecli.Loop) (hinv : Ecli.Inv argv0 s)
    (hf : argv0.length - s.i ≤ fuel) (hu : Ecli.Unambiguous s.options)
    (hp : s.options.Perm s'.options) (hargv : s'.argv = s.argv) (hsi : s'.i = s.i)
    (hnp : s'.nb_positional = s.nb_positional) :
    (Ecli.loop initial intro_msg argv0.length fuel s = .exited (Ecli.help initial intro_msg) ∧
      Ecli.loop initial' intro_msg argv0.length fuel s' =
        .exited (Ecli.help initial' intro_msg)) ∨
    ∃ os os' av n, Ecli.loop initial intro_msg argv0.length fuel s = .returned os av n ∧
      Ecli.loop initial' intro_msg argv0.length fuel s' = .returned os' av n ∧
      os.Perm os' ∧ os.map (·.name) = s.options.map (·.name) := by
  induction fuel generalizing s s' with
  | zero =>
    have hlt : ¬ s.i < argv0.length := by omega
    have hlt' : ¬ s'.i < argv0.length := by rw [hsi]; exact hlt
    refine Or.inr ⟨_, _, _, _, loop_done _ _ _ _ _ hlt, ?_, hp.map _, ?_⟩
    · rw [loop_done _ _ _ _ _ hlt', hargv, hnp]
      rfl
    · simp only [Ecli.clearUnprocessed, List.map_map]
      apply List.map_congr_left
      intro o _
      simp only [Function.comp]
      split <;> rfl
  | succ n ih =>
    by_cases hlt : s.i < argv0.length
    · have hlt' : s'.i < argv0.length := by rw [hsi]; exact hlt
      rw [loop_succ _ _ _ _ _ hlt, loop_succ _ _ _ _ _ hlt']
      rcases body_perm initial initial' intro_msg argv0 s s' hinv hlt hu hp hargv hsi hnp with
        ⟨he, he'⟩ | ⟨t, t', he, he', hpt, hat, hit, hnt⟩
      · rw [he, he']
        exact Or.inl ⟨rfl, rfl⟩
      · rw [he, he']
        obtain ⟨hinvt, hinc, _⟩ := body_inv _ _ _ _ _ hinv hlt he
        have hnames := body_keeps_names _ _ _ _ _ hinv hlt he
        have hut : Ecli.Unambiguous t.options :=
          unambiguous_of_names s.options t.options (by rw [hnames]) hu
        rcases ih t t' hinvt (by omega) hut hpt hat hit hnt with h | ⟨os, os', av, k, h1, h2, h3, h4⟩
        · exact Or.inl h
        · exact Or.inr ⟨os, os', av, k, h1, h2, h3, by rw [h4, hnames]⟩
    · have hlt' : ¬ s'.i < argv0.length := by rw [hsi]; exact hlt
      refine Or.inr ⟨_, _, _, _, loop_done _ _ _ _ _ hlt, ?_, hp.map _, ?_⟩
      · rw [loop_done _ _ _ _ _ hlt', hargv, hnp]
        rfl
      · simp only [Ecli.clearUnprocessed, List.map_map]
        apply List.map_congr_left
        intro o _
        simp only [Function.comp]
        split <;> rfl

/-- C16 (independence of the declaration order).  For every option set whose
names are pairwise distinct and contain no `=`: a not-yet-consumed option
matches a token if and only if the token equals its name or begins with its
name followed by `=`; a token matches at most one option of the set; and for
every permutation of the options and every vector, the two calls either both
exit through help or both return, with the same count, the same vector (so the
same positional tokens) and option sets that are permutations of each other, in
which the options of the same name are equal, so every option, identified by
its name, gets the same value and state. -/
theorem parse_order_independent (initial initial' options options' : List Ecli.Option)
    (argv : List CStr) (intro_msg : CStr) (hu : Ecli.Unambiguous options)
    (hperm : options.Perm options') :
    (∀ (d : Ecli.Option) (tok : CStr), Ecli.matchesToken d tok = true ↔
        d.state ≠ ._processed ∧ (tok = d.name ∨ (d.name ++ ['=']) <+: tok)) ∧
      (∀ (tok : CStr) (d1 d2 : Ecli.Option), d1 ∈ options → d2 ∈ options →
        Ecli.matchesToken d1 tok = true → Ecli.matchesToken d2 tok = true → d1 = d2) ∧
      ((Ecli.parse initial options argv.length argv intro_msg =
            .exited (Ecli.help initial intro_msg) ∧
          Ecli.parse initial' options' argv.length argv intro_msg =
            .exited (Ecli.help initial' intro_msg)) ∨
        ∃ os os' av n,
          Ecli.parse initial options argv.length argv intro_msg = .returned os av n ∧
          Ecli.parse initial' options' argv.length argv intro_msg = .returned os' av n ∧
          os.Perm os' ∧ ∀ o ∈ os, ∀ o' ∈ os', o.name = o'.name → o = o') := by
  refine ⟨matchesToken_iff, ?_, ?_⟩
  · intro tok d1 d2 h1 h2 hm1 hm2
    exact eq_of_same_name options hu.1 d1 d2 h1 h2
      (matches_same_name d1 d2 tok (hu.2 d1 h1) (hu.2 d2 h2) hm1 hm2)
  · rw [parse_eq_loop, parse_eq_loop]
    rcases loop_perm initial initial' intro_msg argv argv.length (Ecli.start options argv)
      (Ecli.start options' argv) (start_inv options argv) (by simp [Ecli.start]) hu hperm
      rfl rfl rfl with h | ⟨os, os', av, n, h1, h2, h3, h4⟩
    · exact Or.inl h
    · refine Or.inr ⟨os, os', av, n, h1, h2, h3, ?_⟩
      intro o ho o' ho' hname
      have hnd : (os.map (·.name)).Nodup := by
        rw [h4]
        exact hu.1
      exact eq_of_same_name os hnd o o' ho (h3.mem_iff.2 ho') hname

theorem unambiguous_MyOptions : Ecli.Unambiguous MyOptions := by
  unfold Ecli.Unambiguous
  refine ⟨by decide, ?_⟩
  intro o ho
  simp only [MyOptions, List.mem_cons, List.mem_singleton, List.not_mem_nil, or_false] at ho
  rcases ho with rfl | rfl | rfl <;> decide

/-- Witness of C16: the options of `hello.cpp` in the order `--hello`,
`--hello-world`, `--french` and in the order `--french`, `--hello`,
`--hello-world`, on `prog --hello Ada --french`. -/
theorem parse_order_independent_witness :
    (∀ (d : Ecli.Option) (tok : CStr), Ecli.matchesToken d tok = true ↔
        d.state ≠ ._processed ∧ (tok = d.name ∨ (d.name ++ ['=']) <+: tok)) ∧
      (∀ (tok : CStr) (d1 d2 : Ecli.Option), d1 ∈ MyOptions → d2 ∈ MyOptions →
        Ecli.matchesToken d1 tok = true → Ecli.matchesToken d2 tok = true → d1 = d2) ∧
      ((Ecli.parse MyOptions MyOptions (argvOf ["prog", "--hello", "Ada", "--french"]).length
            (argvOf ["prog", "--hello", "Ada", "--french"]) helloIntro =
            .exited (Ecli.help MyOptions helloIntro) ∧
          Ecli.parse MyOptionsReordered MyOptionsReordered
            (argvOf ["prog", "--hello", "Ada", "--french"]).length
            (argvOf ["prog", "--hello", "Ada", "--french"]) helloIntro =
            .exited (Ecli.help MyOptionsReordered helloIntro)) ∨
        ∃ os os' av n,
          Ecli.parse MyOptions MyOptions (argvOf ["prog", "--hello", "Ada", "--french"]).length
            (argvOf ["prog", "--hello", "Ada", "--french"]) helloIntro = .returned os av n ∧
          Ecli.parse MyOptionsReordered MyOptionsReordered
            (argvOf ["prog", "--hello", "Ada", "--french"]).length
            (argvOf ["prog", "--hello", "Ada", "--french"]) helloIntro = .returned os' av n ∧
          os.Perm os' ∧ ∀ o ∈ os, ∀ o' ∈ os', o.name = o'.name → o = o') :=
  parse_order_independent MyOptions MyOptionsReordered MyOptions MyOptionsReordered
    (argvOf ["prog", "--hello", "Ada", "--french"]) helloIntro unambiguous_MyOptions
    (by decide)

/-! ## Which tokens are scanned -/

/-- The rule of the scan: at a loop state of the call whose token is not `--help`,
the iteration goes to the loop state at the next token, except when the token
takes the token behind it as its value; then that token is skipped. -/
theorem scan_rule (initial options : List Ecli.Option) (argv : List CStr)
    (intro_msg : CStr) (s : Ecli.Loop)
    (hr : Ecli.Reaches initial intro_msg argv.length (Ecli.start options argv) s)
    (hi : s.i < argv.length) :
    (argv[s.i]? = some Ecli.helpFlag ∧
      Ecli.body initial intro_msg argv.length s = .exited (Ecli.help initial intro_msg)) ∨
    (argv[s.i]? ≠ some Ecli.helpFlag ∧
      ∃ s', Ecli.body initial intro_msg argv.length s = .next s' ∧
        Ecli.Reaches initial intro_msg argv.length (Ecli.start options argv) s' ∧
        ((takesNextToken argv s ∧ s'.i = s.i + 2) ∨
          (¬ takesNextToken argv s ∧ s'.i = s.i + 1))) := by
  obtain ⟨hinv, _, _⟩ := reaches_inv _ _ _ hr (start_inv options argv)
  obtain ⟨tok, h0, hs, hc⟩ := body_cases initial intro_msg argv s hinv hi
  rcases hc with ⟨hh, _, he⟩ | ⟨hh, _, hn, he⟩ | ⟨hh, j, d, d', i', hj, _, hm, ht, hmj, he⟩
  · exact Or.inl ⟨by rw [h0, hh], he⟩
  · refine Or.inr ⟨by rw [h0]; simpa using hh, _, he, reaches_step _ _ _ hr hi he,
      Or.inr ⟨?_, rfl⟩⟩
    rintro ⟨j, d, hmj, _⟩
    rw [hn] at hmj
    cases hmj
  · refine Or.inr ⟨by rw [h0]; simpa using hh, _, he, reaches_step _ _ _ hr hi he, ?_⟩
    have only : ∀ j2 d2, matchedAt argv.length s = some j2 → s.options[j2]? = some d2 →
        d2 = d := by
      intro j2 d2 h1 h2
      rw [hmj] at h1
      cases h1
      rw [hj] at h2
      cases h2
      rfl
    obtain ⟨hp, ⟨v, rfl⟩ | rfl⟩ := matchesToken_cases hm
    · rw [takeToken_eq_form] at ht
      cases ht
      refine Or.inr ⟨?_, rfl⟩
      rintro ⟨j2, d2, h1, h2, _, h4, _⟩
      have := only j2 d2 h1 h2
      subst this
      rw [h0] at h4
      have hlen := congrArg List.length (Option.some.inj h4)
      simp at hlen
    · cases hst : d.state with
      | _processed => exact absurd hst hp
      | Switch =>
        rw [takeToken_name_switch _ _ _ _ hst] at ht
        cases ht
        refine Or.inr ⟨?_, rfl⟩
        rintro ⟨j2, d2, h1, h2, h3, _, _⟩
        have := only j2 d2 h1 h2
        subst this
        rw [hst] at h3
        cases h3
      | Argument =>
        by_cases hlast : s.i + 1 = argv.length
        · rw [takeToken_name_argument_last _ _ _ _ hst hlast] at ht
          cases ht
          refine Or.inr ⟨?_, rfl⟩
          rintro ⟨_, _, _, _, _, _, h5⟩
          omega
        · have hlt : s.i + 1 < argv.length := by omega
          have hv : s.argv[s.i + 1]? = some argv[s.i + 1] := by
            rw [inv_read hinv (s.i + 1) (Nat.le_succ _), List.getElem?_eq_getElem hlt]
          rw [takeToken_name_argument _ _ _ _ _ hst hlast hv] at ht
          cases ht
          exact Or.inl ⟨⟨j, d, hmj, hj, hst, h0, hlt⟩, rfl⟩

/-- C7, as amended (help trigger).  For every option set and argument vector, the
call prints the help of the default-constructed option set and exits, instead of
returning a count, exactly when some scanned token is `--help`, at any position:
exactly when the token of some loop state of the call is `--help`, and exactly
when the scan of specification 4.1 meets the help trigger.  Which tokens are
scanned: token 0 is (the call starts at the loop state of index 0); at a loop
state whose token is `--help` the iteration exits, before the inner loop tries
any option; at a loop state whose token is not `--help` the next token is
scanned too, unless the token is exactly the name of the `Argument` option that
takes it and is not the last one: then, and only then, the next token is taken
as its value and skipped, the scan going on behind it.  So on the options of
`hello.cpp` the vectors `--french --help` and `prog x --help` exit through
help (a `Switch` does not swallow the token behind it). -/
theorem parse_help_iff_scanned (initial options : List Ecli.Option) (argv : List CStr)
    (intro_msg : CStr) :
    (Ecli.parse initial options argv.length argv intro_msg =
          .exited (Ecli.help initial intro_msg) ↔
        ∃ s, Ecli.Reaches initial intro_msg argv.length (Ecli.start options argv) s ∧
          argv[s.i]? = some Ecli.helpFlag) ∧
      (Ecli.parse initial options argv.length argv intro_msg =
          .exited (Ecli.help initial intro_msg) ↔
        Spec.scan false options argv = none) ∧
      (Ecli.Reaches initial intro_msg argv.length (Ecli.start options argv)
          (Ecli.start options argv) ∧ (Ecli.start options argv).i = 0) ∧
      (∀ s, Ecli.Reaches initial intro_msg argv.length (Ecli.start options argv) s →
        s.i < argv.length →
        (argv[s.i]? = some Ecli.helpFlag ∧
          Ecli.body initial intro_msg argv.length s =
            .exited (Ecli.help initial intro_msg)) ∨
        (argv[s.i]? ≠ some Ecli.helpFlag ∧
          ∃ s', Ecli.body initial intro_msg argv.length s = .next s' ∧
            Ecli.Reaches initial intro_msg argv.length (Ecli.start options argv) s' ∧
            ((takesNextToken argv s ∧ s'.i = s.i + 2) ∨
              (¬ takesNextToken argv s ∧ s'.i = s.i + 1)))) ∧
      Ecli.parse MyOptions MyOptions 2 (argvOf ["--french", "--help"]) helloIntro =
        .exited (Ecli.help MyOptions helloIntro) ∧
      Ecli.parse MyOptions MyOptions 3 (argvOf ["prog", "x", "--help"]) helloIntro =
        .exited (Ecli.help MyOptions helloIntro) := by
  refine ⟨exits_iff_help_state initial options argv intro_msg, ?_,
    ⟨Ecli.Reaches.refl _, rfl⟩, scan_rule initial options argv intro_msg, by rfl, by rfl⟩
  rw [parse_eq_scan]
  cases hsc : Spec.scan false options argv with
  | none => simp
  | some r =>
    obtain ⟨os, pos⟩ := r
    simp
